import Mathlib

/-! # Harbor registry operations (`pkg/phases/harbor/operations.go`)

A shallow embedding of the crawl / verify / delete pipeline of
`pkg/phases/harbor/operations.go`.

* Go strings are Lean strings; `strings.SplitN` is transcribed from the Go
  standard library for a one-character separator (the source only ever passes
  `"/"` and `":"`).
* A Go `error` is an `Option String` (`none` is `nil`).
* The registry client is a record of functions.  A Go call returning
  `(value, error)` is a pair: the code under study keeps using the value after
  logging the error, so both components are kept.
* Every worker pool of the file is the same program text: `N` goroutines draining
  one channel, a `sync.WaitGroup` barrier, and a `close` of the output channel.
  It is embedded once, as a step function on an explicit state (`Pool`), and
  each exported function instantiates it with its own channel capacities and
  per-item loop body.  Goroutine interleaving is a schedule: a list of numbers,
  each selecting one of the goroutines that can currently move.
* Whoever holds an output channel reads it until it is closed and empty.  A
  stage fed by another stage is run on the sequence of values the upstream
  stage has delivered; its input is closed only once the upstream stage has
  closed its output, that is after all upstream workers have returned.
* A panic in a goroutine ends the process: no goroutine moves afterwards.
-/

namespace Harbor

/-! ## Data model -/

/-- A Go `error` value: `none` is `nil`. -/
abbrev GoError := Option String

/-- Modelled from the spec: the declaration of `Project` is not among the
sources; the code reads `Name`. -/
structure Project where
  Name : String
  deriving DecidableEq, Repr

/-- Modelled from the spec: the declaration of the `Image` type is not among the
sources.  The code reads and writes `Name` and `ProjectName`; every other field
the registry supplies is carried along as `Other`. -/
structure Image where
  ProjectName : String
  Name : String
  Other : String
  deriving DecidableEq, Repr

/-- Modelled from the spec: the declaration is not among the sources. A symbolic
tag attached to an artifact (`artifact.Tags[i]`, of which the code reads
`Name`). -/
structure ArtifactTag where
  Name : String
  deriving DecidableEq, Repr

/-- Modelled from the spec: the declaration of `Artifact` is not among the
sources; it is a digest and an ordered sequence of tags. -/
structure Artifact where
  Digest : String
  Tags : List ArtifactTag
  deriving DecidableEq, Repr

/-- Modelled from the spec: the declaration of `Tag` is not among the sources;
its four fields are those the code sets and the manifest file records. -/
structure Tag where
  Name : String
  ProjectName : String
  RepositoryName : String
  Digest : String
  deriving DecidableEq, Repr

structure IntegrityCheckFile where
  Artifacts : List Tag
  Count : Int
  deriving DecidableEq, Repr

/-- Modelled from the spec: the registry client (`*Client`) is not among the
sources. It is consumed as a record of functions, one per method the code
calls, each returning what the call site receives: a value and an error, or an
error (the manifest `GetManifest` returns is discarded at every call site). -/
structure Client where
  ListProjects : List Project × GoError
  ListImages : String → List Image × GoError
  ListArtifacts : String → String → List Artifact × GoError
  GetManifest : String → String → String → GoError
  DeleteTag : Tag → GoError

/-- Modelled from the spec: `platform.Platform` and `NewIngressClient` are not
among the sources. The environment of a call: the outcome of
`NewIngressClient(p)`, and the outcome of reading and unmarshalling a file
(`ioutil.ReadFile`, then `yaml.Unmarshal` into an `IntegrityCheckFile`). -/
structure Platform where
  client : Except String Client
  readFile : String → Except String IntegrityCheckFile

def NewIngressClient (p : Platform) : Except String Client := p.client

def maxHarborImagesChannelLength : Nat := 100000

def maxHarborTagsChannelLength : Nat := 300000

/-! ## `strings.SplitN` -/

/-- The function `strings.Index(s, sep)` for a one-character separator: the position
of the first occurrence, `none` for Go's `-1`. -/
def Index : List Char → Char → Option Nat
  | [], _ => none
  | c :: cs, sep => if c = sep then some 0 else (Index cs sep).map (· + 1)

/-- The loop of `genSplit`: at most `k` cuts, then the remainder. -/
def genSplitLoop (sep : Char) : Nat → List Char → List (List Char)
  | 0, s => [s]
  | k + 1, s =>
    match Index s sep with
    | none => [s]
    | some m => s.take m :: genSplitLoop sep k (s.drop (m + 1))

/-- The function `strings.SplitN(s, sep, n)` for `n ≥ 0` and a one-character
separator: `nil` for `n = 0`; otherwise `n` is capped at `len(s) + 1`, the
string is cut at the first `n - 1` separators and the last piece is the
unsplit remainder. -/
def SplitN (s : String) (sep : Char) (n : Nat) : List String :=
  if n = 0 then []
  else (genSplitLoop sep (min n (s.length + 1) - 1) s.data).map String.mk

/-! ## `CheckManifest` -/

/-- One `GetManifest(project, repository, tag)` call. -/
structure ManifestCall where
  project : String
  repository : String
  tag : String
  deriving DecidableEq, Repr

/-- The function `CheckManifest(p, image)`: the returned error, and the `GetManifest`
calls it made, in order. -/
def CheckManifest (p : Platform) (image : String) : GoError × List ManifestCall :=
  match SplitN image '/' 2 with
  | [projectName, rest] =>
    match SplitN rest ':' 2 with
    | [repositoryName, tagName] =>
      match NewIngressClient p with
      | .error e => (some ("failed to create harbor client: " ++ e), [])
      | .ok client =>
        match client.GetManifest projectName repositoryName tagName with
        | some e =>
          (some ("failed to get manifest for image " ++ image ++ ": " ++ e),
            [ManifestCall.mk projectName repositoryName tagName])
        | none => (none, [ManifestCall.mk projectName repositoryName tagName])
    | _ => (some ("expecting image " ++ image ++ " to have a tag"), [])
  | _ => (some ("expecting image " ++ image ++ " to have project and image name"), [])

/-! ## The worker pool

Every pool in the file has the shape

```
wg.Add(concurrency)
for i := 0; i < concurrency; i++ {
    go func() {
        defer wg.Done()
        for {
            item, more := <-in
            if !more { break }
            ... body: sends on out, registry calls ...
        }
    }()
}
wg.Wait()
close(out)
```

fed by a loop `for _, x := range xs { in <- x }; close(in)` (or by an upstream
stage), and read by whoever holds `out`. -/

/-- One observable operation of a loop body. -/
inductive Action (β γ : Type) where
  /-- A channel send `out <- y`. -/
  | send (y : β)
  /-- A call on the registry that has an effect, recorded as `c`. -/
  | call (c : γ)
  /-- A run-time panic (index out of range). -/
  | panic
  deriving DecidableEq, Repr

/-- Where one worker goroutine stands. -/
inductive Worker (β γ : Type) where
  /-- At `item, more := <-in`. -/
  | recv
  /-- Inside the loop body, with `todo` still to perform. -/
  | busy (todo : List (Action β γ))
  /-- Returned; the deferred `wg.Done()` has run. -/
  | done
  deriving DecidableEq, Repr

/-- What distinguishes the pools of the file from one another. -/
structure Cfg where
  /-- Capacity of the input channel. -/
  capIn : Nat
  /-- Capacity of the output channel. -/
  capOut : Nat
  /-- The function returns the output channel only after its feeding loop and
  `close(in)`: nobody can read the output before. -/
  gated : Bool
  /-- The barrier `wg.Wait()` is executed by the feeding goroutine itself, after
  `close(in)`. -/
  sync : Bool
  deriving DecidableEq, Repr

/-- State of a pool: both channels, the goroutines, the `WaitGroup`. -/
structure Pool (α β γ : Type) where
  /-- Items the feeding loop has not sent yet. -/
  src : List α
  /-- Buffer of the input channel, oldest first. -/
  inq : List α
  /-- The input channel has been closed. -/
  inClosed : Bool
  /-- The input comes from an upstream stage that has not closed its channel: more
  items may come, and the input cannot be closed yet. -/
  more : Bool
  workers : List (Worker β γ)
  /-- The `WaitGroup` counter. -/
  wg : Int
  /-- Buffer of the output channel, oldest first. -/
  outq : List β
  /-- Number of `close(out)` executed. -/
  closes : Nat
  /-- Values the reader has received from the output channel, in order. -/
  recvd : List β
  /-- Effectful registry calls made, in order. -/
  log : List γ
  /-- The reader has seen the output channel closed and empty. -/
  readerDone : Bool
  /-- A goroutine panicked: the process is gone. -/
  crashed : Bool
  deriving Repr

/-- The goroutines of a pool. -/
inductive Actor where
  | feeder
  | worker (i : Nat)
  | closer
  | reader
  deriving DecidableEq, Repr

section Machine

variable {α β γ : Type}

/-- After an operation of the body: back to the receive when the body is over. -/
def settle : List (Action β γ) → Worker β γ
  | [] => .recv
  | t => .busy t

/-- One step of goroutine `a`; `none` when `a` is blocked, has returned, or the
process has crashed. -/
def step (cfg : Cfg) (work : α → List (Action β γ)) (a : Actor) (s : Pool α β γ) :
    Option (Pool α β γ) :=
  if s.crashed then none
  else
    match a with
    | .feeder =>
      match s.src with
      | x :: rest =>
        if s.inq.length < cfg.capIn then some { s with src := rest, inq := s.inq ++ [x] }
        else none
      | [] =>
        if s.inClosed = true ∨ s.more = true then none else some { s with inClosed := true }
    | .worker i =>
      match s.workers[i]? with
      | none => none
      | some .done => none
      | some .recv =>
        match s.inq with
        | x :: rest =>
          some { s with inq := rest, workers := s.workers.set i (settle (work x)) }
        | [] =>
          if s.inClosed then some { s with workers := s.workers.set i .done, wg := s.wg - 1 }
          else none
      | some (.busy []) => some { s with workers := s.workers.set i .recv }
      | some (.busy (.send y :: t)) =>
        if 0 < s.closes then some { s with crashed := true }
        else if s.outq.length < cfg.capOut then
          some { s with outq := s.outq ++ [y], workers := s.workers.set i (settle t) }
        else none
      | some (.busy (.call c :: t)) =>
        some { s with log := s.log ++ [c], workers := s.workers.set i (settle t) }
      | some (.busy (.panic :: _)) => some { s with crashed := true }
    | .closer =>
      if s.closes = 0 ∧ s.wg = 0 ∧ (cfg.sync = true → s.inClosed = true) then
        some { s with closes := s.closes + 1 }
      else none
    | .reader =>
      if s.readerDone = true ∨ (cfg.gated = true ∧ s.inClosed = false) then none
      else
        match s.outq with
        | y :: rest => some { s with outq := rest, recvd := s.recvd ++ [y] }
        | [] => if 0 < s.closes then some { s with readerDone := true } else none

/-- All goroutines of a pool of `n` workers. -/
def actors (n : Nat) : List Actor :=
  .feeder :: .closer :: .reader :: (List.range n).map .worker

/-- The goroutines that can move in `s`. -/
def enabled (cfg : Cfg) (work : α → List (Action β γ)) (s : Pool α β γ) : List Actor :=
  (actors s.workers.length).filter fun a => (step cfg work a s).isSome

/-- One scheduling decision: `k` selects among the goroutines that can move; the
state is final when none can. -/
def next (cfg : Cfg) (work : α → List (Action β γ)) (s : Pool α β γ) (k : Nat) : Pool α β γ :=
  match (enabled cfg work s)[k % (enabled cfg work s).length]? with
  | none => s
  | some a => (step cfg work a s).getD s

/-- Run a schedule. -/
def exec (cfg : Cfg) (work : α → List (Action β γ)) (s : Pool α β γ) (sched : List Nat) :
    Pool α β γ :=
  sched.foldl (next cfg work) s

/-- The pool right after `wg.Add(n)` and the `n` `go` statements. -/
def Pool.start (src : List α) (n : Nat) : Pool α β γ :=
  { src := src, inq := [], inClosed := false, more := false,
    workers := List.replicate n .recv, wg := n,
    outq := [], closes := 0, recvd := [], log := [], readerDone := false, crashed := false }

/-- The pool has run to completion: input fed and drained, every worker returned,
output closed and read to the end. -/
def Pool.complete (s : Pool α β γ) : Prop :=
  s.crashed = false ∧ s.src = [] ∧ s.inq = [] ∧ s.inClosed = true ∧
    (∀ w ∈ s.workers, w = .done) ∧ s.wg = 0 ∧ s.outq = [] ∧ s.closes = 1 ∧ s.readerDone = true

/-- Steps a body still takes: a send costs the send and the later receive. -/
def Action.cost : Action β γ → Nat
  | .send _ => 2
  | .call _ => 1
  | .panic => 1

def bodyCost (t : List (Action β γ)) : Nat := (t.map Action.cost).sum

def Worker.cost : Worker β γ → Nat
  | .recv => 1
  | .busy t => 2 + bodyCost t
  | .done => 0

/-- A bound on the number of steps the pool can still take. -/
def fuel (work : α → List (Action β γ)) (s : Pool α β γ) : Nat :=
  if s.crashed then 0
  else
    1 + (s.src.map fun x => bodyCost (work x) + 3).sum
      + (s.inq.map fun x => bodyCost (work x) + 2).sum
      + (s.workers.map Worker.cost).sum + s.outq.length
      + (if s.inClosed then 0 else 1) + (if s.closes = 0 then 1 else 0)
      + (if s.readerDone then 0 else 1)

end Machine

/-! ## `ListImages` -/

/-- The two statements `parts := strings.SplitN(image.Name, "/", 2)` and
`image.Name = parts[1]`, after `image.ProjectName = projectName`; `none` when the
index is out of range. -/
def normalize (projectName : String) (image : Image) : Option Image :=
  match (SplitN image.Name '/' 2)[1]? with
  | none => none
  | some name => some { image with ProjectName := projectName, Name := name }

/-- Body of the `ListImages` worker for one project name: the `for _, image :=
range images` loop over whatever list `client.ListImages` returned (the error is
logged, the list is ranged over all the same). -/
def imagesBody (client : Client) (projectName : String) : List (Action Image Unit) :=
  (client.ListImages projectName).1.map fun image =>
    match normalize projectName image with
    | none => .panic
    | some image => .send image

/-- Channels of `ListImages`: `projectsCh` holds `len(projects)` names, and the
function returns `imagesCh` after the feeding loop. -/
def imagesCfg (projects : List Project) : Cfg :=
  { capIn := projects.length, capOut := maxHarborImagesChannelLength, gated := true,
    sync := false }

/-- What a channel-returning function hands back after the schedule has run:
the error, or the state of its pool. -/
abbrev Stage (α β : Type) := Except String (Pool α β Unit)

/-- The pool of a channel-returning function started with `concurrency` workers:
`wg.Add` panics on a negative count. -/
def spawn {α β γ : Type} (src : List α) (concurrency : Int) : Pool α β γ :=
  if concurrency < 0 then { Pool.start src 0 with crashed := true }
  else Pool.start src concurrency.toNat

/-- The function `ListImages(p, concurrency)`, run under `sched`. -/
def ListImages (p : Platform) (concurrency : Int) (sched : List Nat) : Stage String Image :=
  match NewIngressClient p with
  | .error e => .error ("failed to create harbor client: " ++ e)
  | .ok client =>
    match client.ListProjects with
    | (_, some e) => .error ("failed to list projects: " ++ e)
    | (projects, none) =>
      .ok (exec (imagesCfg projects) (imagesBody client)
        (spawn (projects.map (·.Name)) concurrency) sched)

/-! ## `ListImagesWithTags` -/

/-- The tags one artifact yields: the digest as a tag, then one per symbolic
tag, in order. -/
def artifactTags (image : Image) (artifact : Artifact) : List Tag :=
  { Name := artifact.Digest, ProjectName := image.ProjectName, RepositoryName := image.Name,
    Digest := artifact.Digest } ::
  artifact.Tags.map fun tag =>
    { Name := tag.Name, ProjectName := image.ProjectName, RepositoryName := image.Name,
      Digest := artifact.Digest }

/-- The tags one image yields: those of each artifact `client.ListArtifacts`
returned, in order. -/
def imageTags (client : Client) (image : Image) : List Tag :=
  (client.ListArtifacts image.ProjectName image.Name).1.flatMap (artifactTags image)

/-- Body of the `ListImagesWithTags` worker for one image. -/
def tagsBody (client : Client) (image : Image) : List (Action Tag Unit) :=
  (imageTags client image).map .send

/-- Channels of `ListImagesWithTags`: `imagesCh` in, `tagsCh` out, returned at
once. -/
def tagsCfg : Cfg :=
  { capIn := maxHarborImagesChannelLength, capOut := maxHarborTagsChannelLength,
    gated := false, sync := false }

/-- A pool whose input channel is the output channel of the stage `up`, as that
stage stands: the workers of this pool are the readers of that channel, so
their input is what `up` has delivered so far, and it is closed only if `up` has
closed its channel and the channel has been read to its end (`up.readerDone`);
until then more may come and no worker of this pool returns. A panic in `up` is
a panic of the process. -/
def downstream {α β γ : Type} (up : Pool α β Unit) (concurrency : Int) : Pool β γ Unit :=
  if up.crashed then { Pool.start up.recvd 0 with crashed := true }
  else { spawn up.recvd concurrency with more := !up.readerDone }

/-- The function `ListImagesWithTags(p, concurrency)`: `ListImages` run under
`sched₁`, its own pool, which ranges over the channel `ListImages` returned,
under `sched₂`. -/
def ListImagesWithTags (p : Platform) (concurrency : Int) (sched₁ sched₂ : List Nat) :
    Stage Image Tag :=
  match NewIngressClient p with
  | .error e => .error ("failed to create harbor client: " ++ e)
  | .ok client =>
    match ListImages p concurrency sched₁ with
    | .error e => .error ("failed to list images: " ++ e)
    | .ok images => .ok (exec tagsCfg (tagsBody client) (downstream images concurrency) sched₂)

/-! ## `IntegrityCheck`, `IntegrityCheckFromFile` -/

/-- Body of the verification worker for one tag: fetch the manifest by
`(ProjectName, RepositoryName, Name)`, forward the tag when the fetch fails. -/
def verifyBody (client : Client) (tag : Tag) : List (Action Tag Unit) :=
  match client.GetManifest tag.ProjectName tag.RepositoryName tag.Name with
  | some _ => [.send tag]
  | none => []

/-- Channels of `IntegrityCheck`: `tagsCh` in, `brokenTagsCh` out, returned at
once. -/
def verifyCfg : Cfg :=
  { capIn := maxHarborTagsChannelLength, capOut := maxHarborTagsChannelLength,
    gated := false, sync := false }

/-- Channels of `IntegrityCheckFromFile`: as `verifyCfg`, but `brokenTagsCh` is
returned after the loop that feeds `tagsCh`. -/
def verifyFileCfg : Cfg :=
  { capIn := maxHarborTagsChannelLength, capOut := maxHarborTagsChannelLength,
    gated := true, sync := false }

/-- The function `IntegrityCheck(p, concurrency)`: `ListImagesWithTags` run under
`sched₁` and `sched₂`, its own pool, which ranges over the channel
`ListImagesWithTags` returned, under `sched₃`. -/
def IntegrityCheck (p : Platform) (concurrency : Int) (sched₁ sched₂ sched₃ : List Nat) :
    Stage Tag Tag :=
  match NewIngressClient p with
  | .error e => .error ("failed to create harbor client: " ++ e)
  | .ok client =>
    match ListImagesWithTags p concurrency sched₁ sched₂ with
    | .error e => .error ("failed to list tags: " ++ e)
    | .ok tags => .ok (exec verifyCfg (verifyBody client) (downstream tags concurrency) sched₃)

/-- The function `parseIntegrityCheckFile(filename)`. -/
def parseIntegrityCheckFile (p : Platform) (filename : String) :
    Except String (List Tag × Int) :=
  match p.readFile filename with
  | .error e => .error e
  | .ok f => .ok (f.Artifacts, f.Count)

/-- The function `IntegrityCheckFromFile(p, concurrency, file)`. -/
def IntegrityCheckFromFile (p : Platform) (concurrency : Int) (file : String)
    (sched : List Nat) : Stage Tag Tag :=
  match NewIngressClient p with
  | .error e => .error ("failed to create harbor client: " ++ e)
  | .ok client =>
    match parseIntegrityCheckFile p file with
    | .error e => .error ("failed to parse file: " ++ file ++ ": " ++ e)
    | .ok (tags, _) => .ok (exec verifyFileCfg (verifyBody client) (spawn tags concurrency) sched)

/-! ## `BulkDelete` -/

/-- One `client.DeleteTag(tag)` call and what it returned (logged with `Errorf`
or `Infof` accordingly). -/
structure DeleteCall where
  tag : Tag
  result : GoError
  deriving DecidableEq, Repr

/-- Body of the `BulkDelete` worker for one tag. -/
def deleteBody (client : Client) (tag : Tag) : List (Action Unit DeleteCall) :=
  [.call { tag := tag, result := client.DeleteTag tag }]

/-- Channels of `BulkDelete`: `tagsCh` in, no output channel (nothing to send on,
nothing to gate); the function waits for the workers itself, after
`close(tagsCh)`, and then returns, which is the reader's last step. -/
def deleteCfg : Cfg :=
  { capIn := maxHarborTagsChannelLength, capOut := 0, gated := false, sync := true }

/-- How a call of `BulkDelete` stands after the schedule has run. -/
inductive Outcome where
  /-- Still inside the call. -/
  | running
  | panicked
  | returned (err : GoError)
  deriving DecidableEq, Repr

structure DeleteRun where
  outcome : Outcome
  /-- The `DeleteTag` calls made, in order. -/
  calls : List DeleteCall
  deriving DecidableEq, Repr

/-- The function `BulkDelete(p, concurrency, file, expectedCount)`, run under `sched`. -/
def BulkDelete (p : Platform) (concurrency : Int) (file : String) (expectedCount : Int)
    (sched : List Nat) : DeleteRun :=
  match NewIngressClient p with
  | .error e => ⟨.returned (some ("failed to create harbor client: " ++ e)), []⟩
  | .ok client =>
    match parseIntegrityCheckFile p file with
    | .error e => ⟨.returned (some ("failed to parse file: " ++ file ++ ": " ++ e)), []⟩
    | .ok (tags, count) =>
      if expectedCount > 0 ∧ count ≠ expectedCount then
        ⟨.returned (some ("expected " ++ toString expectedCount ++
          " tags to be deleted, file contains " ++ toString count ++ " tags")), []⟩
      else
        let s : Pool Tag Unit DeleteCall :=
          exec deleteCfg (deleteBody client) (spawn tags concurrency) sched
        ⟨if s.crashed then .panicked else if s.readerDone then .returned none else .running,
          s.log⟩

section MachineRelation

variable {α β γ : Type}

/-- The transitions of `step`, one constructor per branch. -/
inductive Step (cfg : Cfg) (work : α → List (Action β γ)) : Pool α β γ → Pool α β γ → Prop where
  | push (s : Pool α β γ) (x : α) (rest : List α) (hc : s.crashed = false)
      (hsrc : s.src = x :: rest) (hcap : s.inq.length < cfg.capIn) :
      Step cfg work s { s with src := rest, inq := s.inq ++ [x] }
  | closeIn (s : Pool α β γ) (hc : s.crashed = false) (hsrc : s.src = [])
      (hopen : s.inClosed = false) (hmore : s.more = false) :
      Step cfg work s { s with inClosed := true }
  | take (s : Pool α β γ) (i : Nat) (x : α) (rest : List α) (hc : s.crashed = false)
      (hw : s.workers[i]? = some .recv) (hinq : s.inq = x :: rest) :
      Step cfg work s { s with inq := rest, workers := s.workers.set i (settle (work x)) }
  | leave (s : Pool α β γ) (i : Nat) (hc : s.crashed = false)
      (hw : s.workers[i]? = some .recv) (hinq : s.inq = []) (hcl : s.inClosed = true) :
      Step cfg work s { s with workers := s.workers.set i .done, wg := s.wg - 1 }
  | again (s : Pool α β γ) (i : Nat) (hc : s.crashed = false)
      (hw : s.workers[i]? = some (.busy [])) :
      Step cfg work s { s with workers := s.workers.set i .recv }
  | send (s : Pool α β γ) (i : Nat) (y : β) (t : List (Action β γ)) (hc : s.crashed = false)
      (hw : s.workers[i]? = some (.busy (.send y :: t))) (hopen : s.closes = 0)
      (hcap : s.outq.length < cfg.capOut) :
      Step cfg work s { s with outq := s.outq ++ [y], workers := s.workers.set i (settle t) }
  | sendClosed (s : Pool α β γ) (i : Nat) (y : β) (t : List (Action β γ))
      (hc : s.crashed = false) (hw : s.workers[i]? = some (.busy (.send y :: t)))
      (hcl : 0 < s.closes) : Step cfg work s { s with crashed := true }
  | call (s : Pool α β γ) (i : Nat) (c : γ) (t : List (Action β γ)) (hc : s.crashed = false)
      (hw : s.workers[i]? = some (.busy (.call c :: t))) :
      Step cfg work s { s with log := s.log ++ [c], workers := s.workers.set i (settle t) }
  | panic (s : Pool α β γ) (i : Nat) (t : List (Action β γ)) (hc : s.crashed = false)
      (hw : s.workers[i]? = some (.busy (.panic :: t))) :
      Step cfg work s { s with crashed := true }
  | closeOut (s : Pool α β γ) (hc : s.crashed = false) (hopen : s.closes = 0)
      (hwg : s.wg = 0) (hsync : cfg.sync = true → s.inClosed = true) :
      Step cfg work s { s with closes := s.closes + 1 }
  | read (s : Pool α β γ) (y : β) (rest : List β) (hc : s.crashed = false)
      (hrd : s.readerDone = false) (hgate : cfg.gated = true → s.inClosed = true)
      (hout : s.outq = y :: rest) :
      Step cfg work s { s with outq := rest, recvd := s.recvd ++ [y] }
  | readEnd (s : Pool α β γ) (hc : s.crashed = false)
      (hrd : s.readerDone = false) (hgate : cfg.gated = true → s.inClosed = true)
      (hout : s.outq = []) (hcl : 0 < s.closes) :
      Step cfg work s { s with readerDone := true }

end MachineRelation

section MachineInvariants

variable {α β γ : Type}

/-- A worker that has not returned counts in the `WaitGroup`. -/
def Worker.live : Worker β γ → Nat
  | .done => 0
  | _ => 1

def liveCount (ws : List (Worker β γ)) : Nat := (ws.map Worker.live).sum

def Worker.todo : Worker β γ → List (Action β γ)
  | .busy t => t
  | _ => []

/-- Operations the workers have started a body for and not performed yet. -/
def pending (ws : List (Worker β γ)) : List (Action β γ) := ws.flatMap Worker.todo

def Action.sent : Action β γ → Option β
  | .send y => some y
  | _ => none

def Action.called : Action β γ → Option γ
  | .call c => some c
  | _ => none

/-- The values a body sends, in order. -/
def sends (t : List (Action β γ)) : List β := t.filterMap Action.sent

/-- The calls a body makes, in order. -/
def calls (t : List (Action β γ)) : List γ := t.filterMap Action.called

/-- Everything sent on the output channel so far, in order. -/
def Pool.hist (s : Pool α β γ) : List β := s.recvd ++ s.outq

/-- Control invariant of a pool: the `WaitGroup` counts the workers that have not
returned, the output is closed at most once and only when none is left, a
worker returns only from a closed and empty input, the input is closed only
after the feeding loop, and the reader stops only at a closed and empty
output. -/
structure Coherent (s : Pool α β γ) : Prop where
  wg_eq : s.wg = liveCount s.workers
  closes_le : s.closes ≤ 1
  closed_live : 0 < s.closes → liveCount s.workers = 0
  done_in : Worker.done ∈ s.workers → s.inClosed = true ∧ s.inq = []
  closed_src : s.inClosed = true → s.src = []
  reader : s.readerDone = true → 0 < s.closes ∧ s.outq = []

/-- A worker inside a body holds one item. -/
def Worker.load : Worker β γ → Nat
  | .busy _ => 1
  | _ => 0

def busyCount (ws : List (Worker β γ)) : Nat := (ws.map Worker.load).sum

/-- Buffer invariant of a gated pool of `n` workers while its feeding loop runs
(nobody reads the output yet): either what is still to be fed fits the input
channel, or every body is at most one operation and the items not yet through
fit the two channels and the workers' hands together. -/
def Buffered (cfg : Cfg) (work : α → List (Action β γ)) (n : Nat) (s : Pool α β γ) : Prop :=
  cfg.gated = true → s.inClosed = false →
    s.src.length + s.inq.length ≤ cfg.capIn ∨
    (0 < cfg.capIn ∧ (∀ x, (work x).length ≤ 1) ∧ (∀ w ∈ s.workers, w.todo.length ≤ 1) ∧
      s.workers.length = n ∧
      s.src.length + s.inq.length + busyCount s.workers + s.outq.length
        ≤ cfg.capIn + cfg.capOut + n)

/-- Data invariant of a pool fed with `all`: the operations performed, together
with those still to perform, are the operations of the bodies of `all`. -/
def Accounted (work : α → List (Action β γ)) (all : List α) (s : Pool α β γ) : Prop :=
  List.Perm
    (s.hist.map Action.send ++ s.log.map Action.call ++ pending s.workers ++
      (s.inq ++ s.src).flatMap work)
    (all.flatMap work)

/-- Where item `x` stands: still to be received, or a worker is inside its body
and the sends made so far appear in order in the output `h`, or all its sends
do. -/
def Placed (work : α → List (Action β γ)) (x : α) (src inq : List α)
    (ws : List (Worker β γ)) (h : List β) : Prop :=
  x ∈ src ∨ x ∈ inq ∨
    (∃ pre t, Worker.busy t ∈ ws ∧ pre ++ t = work x ∧ (sends pre).Sublist h) ∨
    (sends (work x)).Sublist h

/-- Order invariant of a pool fed with `all`: every item is placed. -/
def Ordered (work : α → List (Action β γ)) (all : List α) (s : Pool α β γ) : Prop :=
  ∀ x ∈ all, Placed work x s.src s.inq s.workers s.hist

/-- What a pool of `n` workers needs of its channels to run `src` through. A gated
pool must buffer its input before anybody reads its output: the input fits the
input channel, or every body is at most one operation and the input fits the
two channels and the workers' hands together. Another pool has a buffered
input. An output that is sent on has room. -/
structure Cfg.Fits (cfg : Cfg) (work : α → List (Action β γ)) (src : List α) (n : Nat) :
    Prop where
  input :
    if cfg.gated then
      src.length ≤ cfg.capIn ∨
        (0 < cfg.capIn ∧ (∀ x, (work x).length ≤ 1) ∧
          src.length ≤ cfg.capIn + cfg.capOut + n)
    else 0 < cfg.capIn
  output : 0 < cfg.capOut ∨ ∀ x ∈ src, sends (work x) = []

end MachineInvariants

/-! ## Concrete registries -/

/-- The registry of the scenario: project `p1` holds image `p1/img`, whose one
artifact `sha256:abc` is tagged `latest`; the manifest of `latest` cannot be
fetched, every other manifest can. -/
def scenarioClient : Client :=
  { ListProjects := ([⟨"p1"⟩], none)
    ListImages := fun projectName =>
      if projectName = "p1" then ([⟨"", "p1/img", "pulls=7"⟩], none)
      else ([], some "project not found")
    ListArtifacts := fun projectName name =>
      if projectName = "p1" ∧ name = "img" then ([⟨"sha256:abc", [⟨"latest"⟩]⟩], none)
      else ([], some "repository not found")
    GetManifest := fun _ _ tag => if tag = "latest" then some "manifest unknown" else none
    DeleteTag := fun tag => if tag.Name = "v2" then some "precondition failed" else none }

def scenarioTags : List Tag :=
  [⟨"v1", "p1", "img", "sha256:a"⟩, ⟨"v2", "p1", "img", "sha256:b"⟩,
    ⟨"v3", "p1", "img", "sha256:c"⟩, ⟨"v4", "p1", "img", "sha256:d"⟩,
    ⟨"latest", "p1", "img", "sha256:e"⟩]

/-- A platform over `scenarioClient` whose file `broken.yaml` declares `count: 5`
and lists the five tags of `scenarioTags`. -/
def scenarioPlatform : Platform :=
  { client := .ok scenarioClient
    readFile := fun file =>
      if file = "broken.yaml" then .ok ⟨scenarioTags, 5⟩ else .error "no such file" }

/-- A registry none of whose manifests can be fetched. -/
def floodClient : Client :=
  { scenarioClient with GetManifest := fun _ _ _ => some "manifest unknown" }

/-- The tags `v0`, ..., `v600001` of `p1/img`. -/
def floodTags : List Tag :=
  (List.range 600002).map fun i => ⟨"v" ++ toString i, "p1", "img", "sha256:abc"⟩

/-- A platform over `floodClient` whose file `flood.yaml` lists `floodTags`. -/
def floodPlatform : Platform :=
  { client := .ok floodClient
    readFile := fun file =>
      if file = "flood.yaml" then .ok ⟨floodTags, 600002⟩ else .error "no such file" }

/-- A registry whose listing of `p1` returns an error together with a list: the
image `p1/img`. -/
def partialClient : Client :=
  { scenarioClient with
    ListImages := fun _ => ([⟨"", "p1/img", "pulls=7"⟩], some "unexpected EOF") }

def partialPlatform : Platform :=
  { scenarioPlatform with client := .ok partialClient }

/-- A registry that lists, for `p1`, an image named `img`: no project component,
no `/`. -/
def bareClient : Client :=
  { scenarioClient with ListImages := fun _ => ([⟨"", "img", "pulls=7"⟩], none) }

def barePlatform : Platform :=
  { scenarioPlatform with client := .ok bareClient }

/-- The text of `name` after its first `/` (all of it dropped when there is
none): the name with its leading component removed, as the specification
words the normalisation. -/
def afterSlash (name : String) : String :=
  String.mk ((name.data.dropWhile (· ≠ '/')).drop 1)

/-- The images of the registry as the specification words their enumeration:
for every project `P` of `projects`, in order, every image the registry lists
for `P`, with `ProjectName` set to `P` and `Name` cut down to the text after its
first `/`. -/
def enumerated (client : Client) (projects : List Project) : List Image :=
  projects.flatMap fun project =>
    (client.ListImages project.Name).1.map fun image =>
      { image with ProjectName := project.Name, Name := afterSlash image.Name }

/-! # Properties -/

set_option maxRecDepth 100000

section MachineFacts

variable {α β γ : Type}

theorem step_sound {cfg : Cfg} {work : α → List (Action β γ)} {a : Actor}
    {s s' : Pool α β γ} (h : step cfg work a s = some s') : Step cfg work s s' := by
  unfold step at h
  split at h
  · exact absurd h (by simp)
  next hc =>
    have hc' : s.crashed = false := by simpa using hc
    split at h
    · split at h
      next x rest hsrc =>
        split at h
        next hcap => cases h; exact .push s x rest hc' hsrc hcap
        · exact absurd h (by simp)
      next hsrc =>
        split at h
        · exact absurd h (by simp)
        next ho =>
          have ho' : s.inClosed = false ∧ s.more = false := by simpa using ho
          cases h
          exact .closeIn s hc' hsrc ho'.1 ho'.2
    · split at h
      · exact absurd h (by simp)
      · exact absurd h (by simp)
      next hw =>
        split at h
        next x rest hinq => cases h; exact .take s _ x rest hc' hw hinq
        next hinq =>
          split at h
          next hcl => cases h; exact .leave s _ hc' hw hinq hcl
          · exact absurd h (by simp)
      next hw => cases h; exact .again s _ hc' hw
      next y t hw =>
        split at h
        next hcl => cases h; exact .sendClosed s _ y t hc' hw hcl
        next hcl =>
          split at h
          next hcap => cases h; exact .send s _ y t hc' hw (by omega) hcap
          · exact absurd h (by simp)
      next c t hw => cases h; exact .call s _ c t hc' hw
      next t hw => cases h; exact .panic s _ t hc' hw
    · split at h
      next hg => cases h; exact .closeOut s hc' hg.1 hg.2.1 hg.2.2
      · exact absurd h (by simp)
    · split at h
      · exact absurd h (by simp)
      next hg =>
        have hrd : s.readerDone = false := by
          cases hr : s.readerDone <;> simp_all
        have hgate : cfg.gated = true → s.inClosed = true := by
          intro hgt
          cases hi : s.inClosed <;> simp_all
        split at h
        next y rest hout => cases h; exact .read s y rest hc' hrd hgate hout
        next hout =>
          split at h
          next hcl => cases h; exact .readEnd s hc' hrd hgate hout hcl
          · exact absurd h (by simp)

end MachineFacts

section ListFacts

variable {ω : Type}

theorem sum_map_set {f : ω → Nat} {l : List ω} {i : Nat} {w w' : ω} (h : l[i]? = some w) :
    ((l.set i w').map f).sum + f w = (l.map f).sum + f w' := by
  induction l generalizing i with
  | nil => simp at h
  | cons a l ih =>
    cases i with
    | zero =>
      simp at h
      subst h
      simp
      omega
    | succ i =>
      simp at h
      have := ih h
      simp only [List.set_cons_succ, List.map_cons, List.sum_cons]
      omega

theorem flatMap_set_perm {κ : Type} {f : ω → List κ} {l : List ω} {i : Nat} {w v : ω}
    (h : l[i]? = some w) :
    List.Perm ((l.set i v).flatMap f ++ f w) (l.flatMap f ++ f v) := by
  induction l generalizing i with
  | nil => simp at h
  | cons a l ih =>
    cases i with
    | zero =>
      simp at h
      subst h
      simp only [List.set_cons_zero, List.flatMap_cons]
      have h₁ : List.Perm (f v ++ l.flatMap f ++ f a) (f a ++ (f v ++ l.flatMap f)) :=
        List.perm_append_comm
      have h₂ : List.Perm (f a ++ (f v ++ l.flatMap f)) (f a ++ (l.flatMap f ++ f v)) :=
        List.Perm.append_left _ List.perm_append_comm
      simpa using h₁.trans h₂
    | succ i =>
      simp at h
      simp only [List.set_cons_succ, List.flatMap_cons, List.append_assoc]
      exact List.Perm.append_left _ (ih h)

theorem mem_set_keep {l : List ω} {i : Nat} {w w₀ w' : ω} (hw : w ∈ l)
    (h : l[i]? = some w₀) (hne : w ≠ w₀) : w ∈ l.set i w' := by
  induction l generalizing i with
  | nil => simp at hw
  | cons a l ih =>
    cases i with
    | zero =>
      simp at h
      subst h
      simp at hw ⊢
      rcases hw with rfl | hw
      · exact absurd rfl hne
      · exact Or.inr hw
    | succ i =>
      simp at h
      simp at hw ⊢
      rcases hw with rfl | hw
      · exact Or.inl rfl
      · exact Or.inr (ih hw h)

theorem mem_set_new {l : List ω} {i : Nat} {w₀ w' : ω} (h : l[i]? = some w₀) :
    w' ∈ l.set i w' := by
  induction l generalizing i with
  | nil => simp at h
  | cons a l ih =>
    cases i with
    | zero => simp
    | succ i =>
      simp at h
      simp
      exact Or.inr (ih h)

theorem mem_of_mem_set {l : List ω} {i : Nat} {w w' : ω} (h : w ∈ l.set i w') :
    w = w' ∨ w ∈ l := by
  induction l generalizing i with
  | nil => simp at h
  | cons a l ih =>
    cases i with
    | zero =>
      simp at h
      rcases h with rfl | h
      · exact Or.inl rfl
      · exact Or.inr (List.mem_cons_of_mem _ h)
    | succ i =>
      simp at h
      rcases h with rfl | h
      · exact Or.inr (List.mem_cons_self _ _)
      · rcases ih h with h | h
        · exact Or.inl h
        · exact Or.inr (List.mem_cons_of_mem _ h)

theorem mem_of_getElem? {l : List ω} {i : Nat} {w : ω} (h : l[i]? = some w) : w ∈ l := by
  induction l generalizing i with
  | nil => simp at h
  | cons a l ih =>
    cases i with
    | zero =>
      simp at h
      subst h
      simp
    | succ i =>
      simp at h
      exact List.mem_cons_of_mem _ (ih h)

end ListFacts

section CoherentFacts

variable {α β γ : Type}

theorem live_settle (t : List (Action β γ)) : (settle t).live = 1 := by
  cases t <;> rfl

theorem live_recv : (Worker.recv : Worker β γ).live = 1 := rfl

theorem live_done : (Worker.done : Worker β γ).live = 0 := rfl

theorem live_busy (t : List (Action β γ)) : (Worker.busy t).live = 1 := rfl

theorem liveCount_set {l : List (Worker β γ)} {i : Nat} {w v : Worker β γ}
    (h : l[i]? = some w) : liveCount (l.set i v) + w.live = liveCount l + v.live :=
  sum_map_set h

theorem live_le_liveCount {l : List (Worker β γ)} {i : Nat} {w : Worker β γ}
    (h : l[i]? = some w) : w.live ≤ liveCount l := by
  have := liveCount_set (v := Worker.done) h
  simp only [live_done] at this
  omega

theorem done_of_mem_set {l : List (Worker β γ)} {i : Nat} {w' : Worker β γ}
    (hne : w' ≠ .done) (h : Worker.done ∈ l.set i w') : Worker.done ∈ l := by
  rcases mem_of_mem_set h with h | h
  · exact absurd h.symm hne
  · exact h

theorem settle_ne_done (t : List (Action β γ)) : settle t ≠ Worker.done := by
  cases t <;> simp [settle]

theorem coherent_step {cfg : Cfg} {work : α → List (Action β γ)} {s s' : Pool α β γ}
    (h : Coherent s) (hs : Step cfg work s s') : Coherent s' := by
  obtain ⟨h1, h2, h3, h4, h5, h6⟩ := h
  cases hs with
  | push x rest hc hsrc hcap =>
    refine ⟨h1, h2, h3, ?_, ?_, h6⟩ <;> dsimp only
    · intro hd
      have := h5 (h4 hd).1
      simp [hsrc] at this
    · intro hcl
      have := h5 hcl
      simp [hsrc] at this
  | closeIn hc hsrc hopen =>
    refine ⟨h1, h2, h3, ?_, ?_, h6⟩ <;> dsimp only
    · intro hd
      exact ⟨rfl, (h4 hd).2⟩
    · intro _
      exact hsrc
  | take i x rest hc hw hinq =>
    have hl := liveCount_set (v := settle (work x)) hw
    simp only [live_settle, live_recv, live_done, live_busy] at hl
    refine ⟨?_, h2, ?_, ?_, h5, h6⟩ <;> dsimp only
    · show s.wg = _
      rw [h1]; congr 1; omega
    · intro hcl
      have := h3 hcl
      omega
    · intro hd
      have := (h4 (done_of_mem_set (settle_ne_done _) hd)).2
      simp [hinq] at this
  | leave i hc hw hinq hcl =>
    have hl := liveCount_set (v := Worker.done) hw
    simp only [live_settle, live_recv, live_done, live_busy] at hl
    refine ⟨?_, h2, ?_, ?_, h5, h6⟩ <;> dsimp only
    · show s.wg - 1 = _
      rw [h1]
      show (liveCount s.workers : Int) - 1 = (liveCount (s.workers.set i _) : Int)
      omega
    · intro hc0
      have := h3 hc0
      omega
    · intro _
      exact ⟨hcl, hinq⟩
  | again i hc hw =>
    have hl := liveCount_set (v := Worker.recv) hw
    simp only [live_settle, live_recv, live_done, live_busy] at hl
    refine ⟨?_, h2, ?_, ?_, h5, h6⟩ <;> dsimp only
    · show s.wg = _
      rw [h1]; congr 1; omega
    · intro hc0
      have := h3 hc0
      omega
    · intro hd
      exact h4 (done_of_mem_set (by simp) hd)
  | send i y t hc hw hopen hcap =>
    have hl := liveCount_set (v := settle t) hw
    simp only [live_settle, live_recv, live_done, live_busy] at hl
    refine ⟨?_, h2, ?_, ?_, h5, ?_⟩ <;> dsimp only
    · show s.wg = _
      rw [h1]; congr 1; omega
    · intro hc0
      omega
    · intro hd
      exact h4 (done_of_mem_set (settle_ne_done _) hd)
    · intro hr
      have := (h6 hr).1
      omega
  | sendClosed i y t hc hw hcl => exact ⟨h1, h2, h3, h4, h5, h6⟩
  | call i c t hc hw =>
    have hl := liveCount_set (v := settle t) hw
    simp only [live_settle, live_recv, live_done, live_busy] at hl
    refine ⟨?_, h2, ?_, ?_, h5, h6⟩ <;> dsimp only
    · show s.wg = _
      rw [h1]; congr 1; omega
    · intro hc0
      have := h3 hc0
      omega
    · intro hd
      exact h4 (done_of_mem_set (settle_ne_done _) hd)
  | panic i t hc hw => exact ⟨h1, h2, h3, h4, h5, h6⟩
  | closeOut hc hopen hwg hsync =>
    refine ⟨h1, ?_, ?_, h4, h5, ?_⟩ <;> dsimp only
    · omega
    · intro _
      have : (liveCount s.workers : Int) = 0 := by rw [← h1]; exact hwg
      exact_mod_cast this
    · intro hr
      have := (h6 hr).1
      omega
  | read y rest hc hrd hgate hout =>
    refine ⟨h1, h2, h3, h4, h5, ?_⟩
    dsimp only
    intro hr
    simp [hrd] at hr
  | readEnd hc hrd hgate hout hcl =>
    refine ⟨h1, h2, h3, h4, h5, ?_⟩
    dsimp only
    intro _
    exact ⟨hcl, hout⟩

theorem load_settle_nil : (settle ([] : List (Action β γ))).load = 0 := rfl

theorem load_recv : (Worker.recv : Worker β γ).load = 0 := rfl

theorem load_busy (t : List (Action β γ)) : (Worker.busy t).load = 1 := rfl

theorem load_settle_le (t : List (Action β γ)) : (settle t).load ≤ 1 := by
  cases t <;> simp [settle, Worker.load]

theorem busyCount_set {l : List (Worker β γ)} {i : Nat} {w v : Worker β γ}
    (h : l[i]? = some w) : busyCount (l.set i v) + w.load = busyCount l + v.load :=
  sum_map_set h

theorem todo_mem_set {l : List (Worker β γ)} {i : Nat} {v : Worker β γ}
    (h : ∀ w ∈ l, w.todo.length ≤ 1) (hv : v.todo.length ≤ 1) :
    ∀ w ∈ l.set i v, w.todo.length ≤ 1 := by
  intro w hw
  rcases mem_of_mem_set hw with e | e
  · rw [e]
    exact hv
  · exact h w e

theorem todo_settle_length (t : List (Action β γ)) : (settle t).todo.length = t.length := by
  cases t <;> rfl

theorem buffered_step {cfg : Cfg} {work : α → List (Action β γ)} {n : Nat}
    {s s' : Pool α β γ} (h : Buffered cfg work n s) (hs : Step cfg work s s') :
    Buffered cfg work n s' := by
  intro hg hopen'
  cases hs with
  | push x rest hc hsrc hcap =>
    rcases h hg hopen' with h1 | ⟨hcap', hone, htodo, hlen, hsum⟩
    · left
      simp [hsrc] at h1 ⊢
      omega
    · right
      refine ⟨hcap', hone, htodo, hlen, ?_⟩
      simp [hsrc] at hsum ⊢
      omega
  | closeIn hc hsrc hopen => simp at hopen'
  | take i x rest hc hw hinq =>
    rcases h hg hopen' with h1 | ⟨hcap', hone, htodo, hlen, hsum⟩
    · left
      simp [hinq] at h1 ⊢
      omega
    · right
      have hb := busyCount_set (v := settle (work x)) hw
      have hl := load_settle_le (work x)
      simp only [load_recv, load_busy] at hb
      refine ⟨hcap', hone, todo_mem_set htodo ?_, by simpa using hlen, ?_⟩
      · rw [todo_settle_length]
        exact hone x
      · simp [hinq] at hsum ⊢
        omega
  | leave i hc hw hinq hcl =>
    have : s.inClosed = false := hopen'
    simp [this] at hcl
  | again i hc hw =>
    rcases h hg hopen' with h1 | ⟨hcap', hone, htodo, hlen, hsum⟩
    · exact Or.inl h1
    · right
      have hb := busyCount_set (v := Worker.recv) hw
      simp only [load_recv, load_busy] at hb
      refine ⟨hcap', hone, todo_mem_set htodo (by simp [Worker.todo]), by simpa using hlen, ?_⟩
      show s.src.length + s.inq.length + busyCount (s.workers.set i Worker.recv) + s.outq.length
        ≤ cfg.capIn + cfg.capOut + n
      omega
  | send i y t hc hw hopen hcap =>
    rcases h hg hopen' with h1 | ⟨hcap', hone, htodo, hlen, hsum⟩
    · exact Or.inl h1
    · right
      have ht := htodo _ (mem_of_getElem? hw)
      simp only [Worker.todo, List.length_cons] at ht
      have ht0 : t = [] := List.length_eq_zero.1 (by omega)
      subst ht0
      have hb := busyCount_set (v := settle ([] : List (Action β γ))) hw
      simp only [load_recv, load_busy, load_settle_nil] at hb
      refine ⟨hcap', hone, todo_mem_set htodo (by simp [settle, Worker.todo]),
        by simpa using hlen, ?_⟩
      simp only [List.length_append, List.length_cons, List.length_nil]
      omega
  | sendClosed i y t hc hw hcl => exact h hg hopen'
  | call i c t hc hw =>
    rcases h hg hopen' with h1 | ⟨hcap', hone, htodo, hlen, hsum⟩
    · exact Or.inl h1
    · right
      have ht := htodo _ (mem_of_getElem? hw)
      simp only [Worker.todo, List.length_cons] at ht
      have ht0 : t = [] := List.length_eq_zero.1 (by omega)
      subst ht0
      have hb := busyCount_set (v := settle ([] : List (Action β γ))) hw
      simp only [load_recv, load_busy, load_settle_nil] at hb
      refine ⟨hcap', hone, todo_mem_set htodo (by simp [settle, Worker.todo]),
        by simpa using hlen, ?_⟩
      show s.src.length + s.inq.length + busyCount (s.workers.set i (settle [])) +
        s.outq.length ≤ cfg.capIn + cfg.capOut + n
      omega
  | panic i t hc hw => exact h hg hopen'
  | closeOut hc hopen hwg hsync => exact h hg hopen'
  | read y rest hc hrd hgate hout =>
    have h1 := hgate hg
    have : s.inClosed = false := hopen'
    simp [this] at h1
  | readEnd hc hrd hgate hout hcl =>
    have h1 := hgate hg
    have : s.inClosed = false := hopen'
    simp [this] at h1

theorem length_step {cfg : Cfg} {work : α → List (Action β γ)} {s s' : Pool α β γ}
    (hs : Step cfg work s s') : s'.workers.length = s.workers.length := by
  cases hs <;> simp

theorem more_step {cfg : Cfg} {work : α → List (Action β γ)} {s s' : Pool α β γ}
    (hs : Step cfg work s s') : s'.more = s.more := by
  cases hs <;> rfl

end CoherentFacts

section FuelFacts

variable {α β γ : Type}

theorem cost_settle (t : List (Action β γ)) : (settle t).cost ≤ 2 + bodyCost t := by
  cases t <;> simp [settle, Worker.cost, bodyCost]

theorem cost_recv : (Worker.recv : Worker β γ).cost = 1 := rfl

theorem cost_done : (Worker.done : Worker β γ).cost = 0 := rfl

theorem cost_busy (t : List (Action β γ)) : (Worker.busy t).cost = 2 + bodyCost t := rfl

theorem bodyCost_nil : bodyCost ([] : List (Action β γ)) = 0 := rfl

theorem bodyCost_send (y : β) (t : List (Action β γ)) :
    bodyCost (Action.send y :: t) = 2 + bodyCost t := rfl

theorem bodyCost_call (c : γ) (t : List (Action β γ)) :
    bodyCost (Action.call c :: t) = 1 + bodyCost t := rfl

theorem cost_set {l : List (Worker β γ)} {i : Nat} {w v : Worker β γ} (h : l[i]? = some w) :
    ((l.set i v).map Worker.cost).sum + w.cost = (l.map Worker.cost).sum + v.cost :=
  sum_map_set h

/-- Every step uses up fuel. -/
theorem fuel_step {cfg : Cfg} {work : α → List (Action β γ)} {s s' : Pool α β γ}
    (hs : Step cfg work s s') : fuel work s' < fuel work s := by
  cases hs with
  | push x rest hc hsrc hcap =>
    simp [fuel, hc, hsrc]
    omega
  | closeIn hc hsrc hopen =>
    simp [fuel, hc, hopen]
  | take i x rest hc hw hinq =>
    have hl := cost_set (v := settle (work x)) hw
    have := cost_settle (work x)
    simp only [cost_recv, cost_done, cost_busy] at hl
    simp [fuel, hc, hinq, -List.map_set]
    omega
  | leave i hc hw hinq hcl =>
    have hl := cost_set (v := Worker.done) hw
    simp only [cost_recv, cost_done, cost_busy] at hl
    simp [fuel, hc, -List.map_set]
    omega
  | again i hc hw =>
    have hl := cost_set (v := Worker.recv) hw
    simp only [cost_recv, cost_done, cost_busy, bodyCost_nil] at hl
    simp [fuel, hc, -List.map_set]
    omega
  | send i y t hc hw hopen hcap =>
    have hl := cost_set (v := settle t) hw
    have := cost_settle t
    simp only [cost_recv, cost_done, cost_busy, bodyCost_nil, bodyCost_send, bodyCost_call] at hl this
    simp [fuel, hc, hopen, -List.map_set]
    omega
  | sendClosed i y t hc hw hcl => simp [fuel, hc]
  | call i c t hc hw =>
    have hl := cost_set (v := settle t) hw
    have := cost_settle t
    simp only [cost_recv, cost_done, cost_busy, bodyCost_nil, bodyCost_send, bodyCost_call] at hl this
    simp [fuel, hc, -List.map_set]
    omega
  | panic i t hc hw => simp [fuel, hc]
  | closeOut hc hopen hwg hsync => simp [fuel, hc, hopen]
  | read y rest hc hrd hgate hout =>
    simp [fuel, hc, hout]
  | readEnd hc hrd hgate hout hcl =>
    simp [fuel, hc, hrd]

end FuelFacts

section AccountedFacts

variable {α β γ : Type}

theorem todo_settle (t : List (Action β γ)) : (settle t).todo = t := by
  cases t <;> rfl

theorem todo_recv : (Worker.recv : Worker β γ).todo = [] := rfl

theorem todo_done : (Worker.done : Worker β γ).todo = [] := rfl

theorem todo_busy (t : List (Action β γ)) : (Worker.busy t).todo = t := rfl

/-- The multiset behind `Accounted`. -/
theorem accounted_iff {work : α → List (Action β γ)} {all : List α} {s : Pool α β γ} :
    Accounted work all s ↔
      ((s.hist.map Action.send : List (Action β γ)) : Multiset (Action β γ)) +
        ((s.log.map Action.call : List (Action β γ)) : Multiset (Action β γ)) +
        (pending s.workers : Multiset (Action β γ)) +
        (((s.inq ++ s.src).flatMap work : List (Action β γ)) : Multiset (Action β γ)) =
      ((all.flatMap work : List (Action β γ)) : Multiset (Action β γ)) := by
  unfold Accounted
  rw [← Multiset.coe_eq_coe]
  simp only [Multiset.coe_add]

theorem pending_set {l : List (Worker β γ)} {i : Nat} {w v : Worker β γ}
    (h : l[i]? = some w) :
    (pending (l.set i v) : Multiset (Action β γ)) + (w.todo : Multiset (Action β γ)) =
      (pending l : Multiset (Action β γ)) + (v.todo : Multiset (Action β γ)) := by
  have := flatMap_set_perm (f := Worker.todo) (v := v) h
  rw [← Multiset.coe_eq_coe] at this
  simpa only [Multiset.coe_add, pending] using this

theorem pending_advance {l : List (Worker β γ)} {i : Nat} {a : Action β γ}
    {t : List (Action β γ)} (h : l[i]? = some (.busy (a :: t))) :
    (pending (l.set i (settle t)) : Multiset (Action β γ)) + {a} =
      (pending l : Multiset (Action β γ)) := by
  have := pending_set (v := settle t) h
  rw [todo_settle, todo_busy] at this
  have h2 : ((a :: t : List (Action β γ)) : Multiset (Action β γ)) = {a} + (t : Multiset _) := by
    rw [← Multiset.cons_coe, Multiset.singleton_add]
  rw [h2, ← add_assoc] at this
  exact add_right_cancel this

theorem accounted_step {cfg : Cfg} {work : α → List (Action β γ)} {all : List α}
    {s s' : Pool α β γ} (h : Accounted work all s) (hs : Step cfg work s s') :
    Accounted work all s' := by
  rw [accounted_iff] at h ⊢
  rw [← h]
  cases hs with
  | push x rest hc hsrc hcap => simp [Pool.hist, hsrc]
  | closeIn hc hsrc hopen => rfl
  | take i x rest hc hw hinq =>
    have hp := pending_set (v := settle (work x)) hw
    rw [todo_settle, todo_recv] at hp
    simp only [Multiset.coe_nil, add_zero] at hp
    simp only [Pool.hist, hinq, hp, List.cons_append, List.flatMap_cons, List.map_append,
      ← Multiset.coe_add]
    abel
  | leave i hc hw hinq hcl =>
    have hp := pending_set (v := Worker.done) hw
    rw [todo_done, todo_recv] at hp
    simp only [Multiset.coe_nil, add_zero] at hp
    simp only [Pool.hist, hp]
  | again i hc hw =>
    have hp := pending_set (v := Worker.recv) hw
    rw [todo_busy, todo_recv] at hp
    simp only [Multiset.coe_nil, add_zero] at hp
    simp only [Pool.hist, hp]
  | send i y t hc hw hopen hcap =>
    have hp := pending_advance hw
    simp only [Pool.hist, ← hp, List.map_append, List.map_cons, List.map_nil,
      ← Multiset.coe_add, Multiset.coe_singleton]
    abel
  | sendClosed i y t hc hw hcl => rfl
  | call i c t hc hw =>
    have hp := pending_advance hw
    simp only [Pool.hist, ← hp, List.map_append, List.map_cons, List.map_nil,
      ← Multiset.coe_add, Multiset.coe_singleton]
    abel
  | panic i t hc hw => rfl
  | closeOut hc hopen hwg hsync => rfl
  | read y rest hc hrd hgate hout => simp [Pool.hist, hout]
  | readEnd hc hrd hgate hout hcl => rfl

end AccountedFacts

section OrderedFacts

variable {α β γ : Type}

theorem sends_snoc_send (pre : List (Action β γ)) (y : β) :
    sends (pre ++ [Action.send y]) = sends pre ++ [y] := by
  simp [sends, List.filterMap_append, Action.sent]

theorem sends_snoc_call (pre : List (Action β γ)) (c : γ) :
    sends (pre ++ [Action.call c]) = sends pre := by
  simp [sends, List.filterMap_append, Action.sent]

theorem placed_mono {work : α → List (Action β γ)} {x : α} {src inq : List α}
    {ws : List (Worker β γ)} {h h' : List β} (hh : h.Sublist h')
    (hp : Placed work x src inq ws h) : Placed work x src inq ws h' := by
  rcases hp with hp | hp | ⟨pre, t, hm, he, hs⟩ | hp
  · exact Or.inl hp
  · exact Or.inr (Or.inl hp)
  · exact Or.inr (Or.inr (Or.inl ⟨pre, t, hm, he, hs.trans hh⟩))
  · exact Or.inr (Or.inr (Or.inr (hp.trans hh)))

theorem placed_push {work : α → List (Action β γ)} {x x₀ : α} {rest inq : List α}
    {ws : List (Worker β γ)} {h : List β} (hp : Placed work x (x₀ :: rest) inq ws h) :
    Placed work x rest (inq ++ [x₀]) ws h := by
  rcases hp with hp | hp | hp | hp
  · rcases List.mem_cons.1 hp with rfl | hp
    · exact Or.inr (Or.inl (by simp))
    · exact Or.inl hp
  · exact Or.inr (Or.inl (by simp [hp]))
  · exact Or.inr (Or.inr (Or.inl hp))
  · exact Or.inr (Or.inr (Or.inr hp))

/-- A worker that is not inside a body changes state: nothing placed moves. -/
theorem placed_idle {work : α → List (Action β γ)} {x : α} {src inq : List α}
    {ws : List (Worker β γ)} {h : List β} {i : Nat} {w₀ w' : Worker β γ}
    (hw : ws[i]? = some w₀) (hidle : ∀ t, w₀ ≠ .busy t)
    (hp : Placed work x src inq ws h) : Placed work x src inq (ws.set i w') h := by
  rcases hp with hp | hp | ⟨pre, t, hm, he, hs⟩ | hp
  · exact Or.inl hp
  · exact Or.inr (Or.inl hp)
  · exact Or.inr (Or.inr (Or.inl ⟨pre, t, mem_set_keep hm hw (fun e => hidle t e.symm), he, hs⟩))
  · exact Or.inr (Or.inr (Or.inr hp))

theorem placed_take {work : α → List (Action β γ)} {x x₀ : α} {src rest : List α}
    {ws : List (Worker β γ)} {h : List β} {i : Nat}
    (hw : ws[i]? = some .recv) (hp : Placed work x src (x₀ :: rest) ws h) :
    Placed work x src rest (ws.set i (settle (work x₀))) h := by
  rcases hp with hp | hp | hp | hp
  · exact Or.inl hp
  · rcases List.mem_cons.1 hp with rfl | hp
    · cases hb : work x with
      | nil => exact Or.inr (Or.inr (Or.inr (by simp [sends, hb])))
      | cons a t =>
        refine Or.inr (Or.inr (Or.inl ⟨[], a :: t, ?_, by simp [hb], by simp [sends]⟩))
        exact mem_set_new hw
    · exact Or.inr (Or.inl hp)
  · exact placed_idle hw (by simp) (Or.inr (Or.inr (Or.inl hp)))
  · exact Or.inr (Or.inr (Or.inr hp))

theorem placed_again {work : α → List (Action β γ)} {x : α} {src inq : List α}
    {ws : List (Worker β γ)} {h : List β} {i : Nat} {w' : Worker β γ}
    (hw : ws[i]? = some (.busy [])) (hp : Placed work x src inq ws h) :
    Placed work x src inq (ws.set i w') h := by
  rcases hp with hp | hp | ⟨pre, t, hm, he, hs⟩ | hp
  · exact Or.inl hp
  · exact Or.inr (Or.inl hp)
  · by_cases ht : t = []
    · subst ht
      rw [List.append_nil] at he
      subst he
      exact Or.inr (Or.inr (Or.inr hs))
    · refine Or.inr (Or.inr (Or.inl ⟨pre, t, mem_set_keep hm hw ?_, he, hs⟩))
      intro e
      exact ht (Worker.busy.inj e)
  · exact Or.inr (Or.inr (Or.inr hp))

/-- A worker performs the head `a` of its body. -/
theorem placed_advance {work : α → List (Action β γ)} {x : α} {src inq : List α}
    {ws : List (Worker β γ)} {h h' : List β} {i : Nat} {a : Action β γ}
    {t₀ : List (Action β γ)} (hw : ws[i]? = some (.busy (a :: t₀))) (hh : h.Sublist h')
    (hadv : ∀ pre : List (Action β γ), (sends pre).Sublist h → (sends (pre ++ [a])).Sublist h')
    (hp : Placed work x src inq ws h) : Placed work x src inq (ws.set i (settle t₀)) h' := by
  rcases hp with hp | hp | ⟨pre, t, hm, he, hs⟩ | hp
  · exact Or.inl hp
  · exact Or.inr (Or.inl hp)
  · by_cases ht : t = a :: t₀
    · subst ht
      have he' : (pre ++ [a]) ++ t₀ = work x := by simpa using he
      cases t₀ with
      | nil =>
        rw [List.append_nil] at he'
        refine Or.inr (Or.inr (Or.inr ?_))
        rw [← he']
        exact hadv pre hs
      | cons b t₁ =>
        exact Or.inr (Or.inr (Or.inl ⟨pre ++ [a], b :: t₁, mem_set_new hw, he', hadv pre hs⟩))
    · refine Or.inr (Or.inr (Or.inl ⟨pre, t, mem_set_keep hm hw ?_, he, hs.trans hh⟩))
      intro e
      exact ht (Worker.busy.inj e)
  · exact Or.inr (Or.inr (Or.inr (hp.trans hh)))

theorem ordered_step {cfg : Cfg} {work : α → List (Action β γ)} {all : List α}
    {s s' : Pool α β γ} (h : Ordered work all s) (hs : Step cfg work s s') :
    Ordered work all s' := by
  intro x hx
  have hp := h x hx
  cases hs with
  | push x₀ rest hc hsrc hcap =>
    rw [hsrc] at hp
    exact placed_push hp
  | closeIn hc hsrc hopen => exact hp
  | take i x₀ rest hc hw hinq =>
    rw [hinq] at hp
    exact placed_take hw hp
  | leave i hc hw hinq hcl => exact placed_idle hw (by simp) hp
  | again i hc hw => exact placed_again hw hp
  | send i y t hc hw hopen hcap =>
    have e : (s.recvd ++ (s.outq ++ [y])) = s.hist ++ [y] := by simp [Pool.hist]
    show Placed work x s.src s.inq _ (s.recvd ++ (s.outq ++ [y]))
    rw [e]
    refine placed_advance hw (List.sublist_append_left _ _) ?_ hp
    intro pre hpre
    rw [sends_snoc_send]
    exact hpre.append (List.Sublist.refl _)
  | sendClosed i y t hc hw hcl => exact hp
  | call i c t hc hw =>
    refine placed_advance hw (List.Sublist.refl _) ?_ hp
    intro pre hpre
    rw [sends_snoc_call]
    exact hpre
  | panic i t hc hw => exact hp
  | closeOut hc hopen hwg hsync => exact hp
  | read y rest hc hrd hgate hout =>
    have e : (s.recvd ++ [y]) ++ rest = s.hist := by simp [Pool.hist, hout]
    show Placed work x s.src s.inq s.workers ((s.recvd ++ [y]) ++ rest)
    rw [e]
    exact hp
  | readEnd hc hrd hgate hout hcl => exact hp

end OrderedFacts

section ProgressFacts

variable {α β γ : Type}

theorem feeder_blocked {cfg : Cfg} {work : α → List (Action β γ)} {s : Pool α β γ}
    (hc : s.crashed = false) (h : step cfg work .feeder s = none) :
    (s.src ≠ [] ∧ cfg.capIn ≤ s.inq.length) ∨
      (s.src = [] ∧ (s.inClosed = true ∨ s.more = true)) := by
  unfold step at h
  simp only [hc, Bool.false_eq_true, if_false] at h
  split at h
  next x rest hsrc =>
    split at h
    · exact absurd h (by simp)
    next hcap => exact Or.inl ⟨by simp [hsrc], by omega⟩
  next hsrc =>
    split at h
    next hcl => exact Or.inr ⟨hsrc, hcl⟩
    · exact absurd h (by simp)

theorem closer_blocked {cfg : Cfg} {work : α → List (Action β γ)} {s : Pool α β γ}
    (hc : s.crashed = false) (h : step cfg work .closer s = none) :
    ¬ (s.closes = 0 ∧ s.wg = 0 ∧ (cfg.sync = true → s.inClosed = true)) := by
  unfold step at h
  simp only [hc, Bool.false_eq_true, if_false] at h
  split at h
  · exact absurd h (by simp)
  next hg => exact hg

theorem reader_blocked {cfg : Cfg} {work : α → List (Action β γ)} {s : Pool α β γ}
    (hc : s.crashed = false) (h : step cfg work .reader s = none) :
    s.readerDone = true ∨ (cfg.gated = true ∧ s.inClosed = false) ∨
      (s.outq = [] ∧ s.closes = 0) := by
  unfold step at h
  simp only [hc, Bool.false_eq_true, if_false] at h
  split at h
  next hg =>
    rcases hg with hg | hg
    · exact Or.inl hg
    · exact Or.inr (Or.inl hg)
  next hg =>
    split at h
    · exact absurd h (by simp)
    next hout =>
      split at h
      · exact absurd h (by simp)
      next hcl => exact Or.inr (Or.inr ⟨hout, by omega⟩)

theorem worker_blocked {cfg : Cfg} {work : α → List (Action β γ)} {s : Pool α β γ} {i : Nat}
    {w : Worker β γ} (hc : s.crashed = false) (hw : s.workers[i]? = some w)
    (h : step cfg work (.worker i) s = none) :
    w = .done ∨ (w = .recv ∧ s.inq = [] ∧ s.inClosed = false) ∨
      (∃ y t, w = .busy (.send y :: t) ∧ s.closes = 0 ∧ cfg.capOut ≤ s.outq.length) := by
  unfold step at h
  simp only [hc, Bool.false_eq_true, if_false, hw] at h
  cases w with
  | done => exact Or.inl rfl
  | recv =>
    simp only at h
    split at h
    · exact absurd h (by simp)
    next hinq =>
      split at h
      · exact absurd h (by simp)
      next hcl => exact Or.inr (Or.inl ⟨rfl, hinq, by simpa using hcl⟩)
  | busy t =>
    cases t with
    | nil => exact absurd h (by simp)
    | cons a t =>
      cases a with
      | send y =>
        simp only at h
        split at h
        · exact absurd h (by simp)
        next hcl =>
          split at h
          · exact absurd h (by simp)
          next hcap => exact Or.inr (Or.inr ⟨y, t, rfl, by omega, by omega⟩)
      | call c => exact absurd h (by simp)
      | panic => exact absurd h (by simp)

theorem enabled_nil {cfg : Cfg} {work : α → List (Action β γ)} {s : Pool α β γ} {a : Actor}
    (h : enabled cfg work s = []) (ha : a ∈ actors s.workers.length) :
    step cfg work a s = none := by
  unfold enabled at h
  rw [List.filter_eq_nil_iff] at h
  have := h a ha
  simpa using this

theorem worker_mem_actors {n i : Nat} (h : i < n) : Actor.worker i ∈ actors n := by
  simp [actors, h]

theorem liveCount_zero {l : List (Worker β γ)} (h : ∀ w ∈ l, w = .done) : liveCount l = 0 := by
  induction l with
  | nil => rfl
  | cons a l ih =>
    have ha := h a (List.mem_cons_self _ _)
    subst ha
    have := ih (fun w hw => h w (List.mem_cons_of_mem _ hw))
    simpa [liveCount, Worker.live] using this

theorem busyCount_all {l : List (Worker β γ)} (h : ∀ w ∈ l, w.load = 1) :
    busyCount l = l.length := by
  induction l with
  | nil => rfl
  | cons a l ih =>
    have ha := h a (List.mem_cons_self _ _)
    have := ih (fun w hw => h w (List.mem_cons_of_mem _ hw))
    simp only [busyCount, List.map_cons, List.sum_cons, List.length_cons] at this ⊢
    omega

/-- A worker inside a body is performing an operation of the body of an item. -/
theorem busy_head_mem {work : α → List (Action β γ)} {all : List α} {s : Pool α β γ}
    (hacc : Accounted work all s) {i : Nat} {a : Action β γ} {t : List (Action β γ)}
    (hw : s.workers[i]? = some (.busy (a :: t))) : ∃ x ∈ all, a ∈ work x := by
  have h1 : a ∈ pending s.workers := by
    unfold pending
    rw [List.mem_flatMap]
    exact ⟨_, mem_of_getElem? hw, by simp [Worker.todo]⟩
  have h2 : a ∈ all.flatMap work := by
    refine (List.Perm.mem_iff hacc).1 ?_
    simp [h1]
  rw [List.mem_flatMap] at h2
  exact h2

theorem send_mem_sends {a : List (Action β γ)} {y : β} (h : Action.send y ∈ a) :
    y ∈ sends a := by
  unfold sends
  rw [List.mem_filterMap]
  exact ⟨_, h, rfl⟩

/-- No goroutine can move, and the process has not crashed: the pool has run to
completion. -/
theorem complete_of_stuck {cfg : Cfg} {work : α → List (Action β γ)} {all : List α}
    {s : Pool α β γ} {n : Nat} (hcoh : Coherent s) (hbuf : Buffered cfg work n s)
    (hacc : Accounted work all s)
    (hn : 0 < s.workers.length) (hin : cfg.gated = false → 0 < cfg.capIn)
    (hout : 0 < cfg.capOut ∨ ∀ x ∈ all, sends (work x) = [])
    (hc : s.crashed = false) (hmore : s.more = false)
    (hstuck : enabled cfg work s = []) : s.complete := by
  have hF := feeder_blocked hc (enabled_nil hstuck (by simp [actors]))
  have hC := closer_blocked hc (enabled_nil hstuck (by simp [actors]))
  have hR := reader_blocked hc (enabled_nil hstuck (by simp [actors]))
  have hW : ∀ (i : Nat) (w : Worker β γ), s.workers[i]? = some w →
      w = Worker.done ∨ (w = Worker.recv ∧ s.inq = [] ∧ s.inClosed = false) ∨
        (∃ y t, w = Worker.busy (Action.send y :: t) ∧ s.closes = 0 ∧
          cfg.capOut ≤ s.outq.length) := by
    intro i w hw
    have hi : i < s.workers.length := (List.getElem?_eq_some.1 hw).1
    exact worker_blocked hc hw (enabled_nil hstuck (worker_mem_actors hi))
  -- a worker blocked on a send is impossible: the reader would move
  have hsend : ∀ (i : Nat) (y : β) (t : List (Action β γ)),
      s.workers[i]? = some (Worker.busy (Action.send y :: t)) → s.closes = 0 →
      cfg.capOut ≤ s.outq.length → (cfg.gated = true → s.inClosed = true) → False := by
    intro i y t hw hcl hcap hg
    rcases hout with hpos | hnone
    · rcases hR with hr | hr | hr
      · have := (hcoh.reader hr).1
        omega
      · have := hg hr.1
        simp [hr.2] at this
      · have : s.outq.length = 0 := by simp [hr.1]
        omega
    · obtain ⟨x, hx, hmem⟩ := busy_head_mem hacc hw
      have := send_mem_sends hmem
      rw [hnone x hx] at this
      simp at this
  obtain ⟨w₀, hw₀⟩ : ∃ w, s.workers[0]? = some w :=
    ⟨s.workers[0], List.getElem?_eq_getElem hn⟩
  rcases hF with ⟨hsrc, hfull⟩ | ⟨hsrc, hclosed | hm⟩
  · exfalso
    have hlen : 0 < s.src.length := List.length_pos.2 hsrc
    cases hg : cfg.gated with
    | true =>
      have hopen : s.inClosed = false := by
        cases hcl : s.inClosed with
        | false => rfl
        | true => exact absurd (hcoh.closed_src hcl) hsrc
      rcases hbuf hg hopen with h1 | ⟨hcap, _, _, hwlen, hsum⟩
      · omega
      · have hinq : s.inq ≠ [] := by
          intro e
          rw [e] at hfull
          simp at hfull
          omega
        have hbusy : ∀ w ∈ s.workers, w.load = 1 ∧ cfg.capOut ≤ s.outq.length := by
          intro w hw
          obtain ⟨i, hi⟩ := List.getElem?_of_mem hw
          rcases hW i w hi with h | h | ⟨y, t, h, _, hcap'⟩
          · subst h
            have := (hcoh.done_in hw).1
            rw [hopen] at this
            cases this
          · exact absurd h.2.1 hinq
          · subst h
            exact ⟨rfl, hcap'⟩
        have hcount : busyCount s.workers = s.workers.length := busyCount_all (fun w hw => (hbusy w hw).1)
        have := (hbusy w₀ (mem_of_getElem? hw₀)).2
        omega
    | false =>
      have hcap := hin hg
      have hinq : s.inq ≠ [] := by
        intro e
        rw [e] at hfull
        simp at hfull
        omega
      rcases hW 0 w₀ hw₀ with h | h | ⟨y, t, h, hcl, hcap'⟩
      · subst h
        exact hinq (hcoh.done_in (mem_of_getElem? hw₀)).2
      · exact hinq h.2.1
      · subst h
        exact hsend 0 y t hw₀ hcl hcap' (by simp [hg])
  · have hall : ∀ w ∈ s.workers, w = .done := by
      intro w hw
      obtain ⟨i, hi⟩ := List.getElem?_of_mem hw
      rcases hW i w hi with h | h | ⟨y, t, h, hcl, hcap'⟩
      · exact h
      · simp [hclosed] at h
      · subst h
        exact absurd (hsend i y t hi hcl hcap' (fun _ => hclosed)) id
    have hlive := liveCount_zero hall
    have hwg : s.wg = 0 := by rw [hcoh.wg_eq, hlive]; rfl
    have hinq : s.inq = [] := by
      have := hall w₀ (mem_of_getElem? hw₀)
      subst this
      exact (hcoh.done_in (mem_of_getElem? hw₀)).2
    have hcl : s.closes = 1 := by
      have := hcoh.closes_le
      by_contra hne
      exact hC ⟨by omega, hwg, fun _ => hclosed⟩
    have hrd : s.readerDone = true := by
      rcases hR with hr | hr | hr
      · exact hr
      · simp [hclosed] at hr
      · omega
    exact ⟨hc, hsrc, hinq, hclosed, hall, hwg, (hcoh.reader hrd).2, hcl, hrd⟩
  · rw [hmore] at hm
    cases hm

end ProgressFacts

section RunFacts

variable {α β γ : Type}

theorem next_cases (cfg : Cfg) (work : α → List (Action β γ)) (s : Pool α β γ) (k : Nat) :
    (enabled cfg work s = [] ∧ next cfg work s k = s) ∨ Step cfg work s (next cfg work s k) := by
  unfold next
  cases hen : enabled cfg work s with
  | nil => exact Or.inl ⟨rfl, by simp⟩
  | cons a l =>
    right
    have hlt : k % (a :: l).length < (a :: l).length := Nat.mod_lt _ (by simp)
    rw [List.getElem?_eq_getElem hlt]
    have hmem : (a :: l)[k % (a :: l).length] ∈ enabled cfg work s := by
      rw [hen]
      exact List.getElem_mem _
    unfold enabled at hmem
    rw [List.mem_filter] at hmem
    obtain ⟨s', hs'⟩ := Option.isSome_iff_exists.1 hmem.2
    simp only [hs', Option.getD_some]
    exact step_sound hs'

theorem crashed_stuck {cfg : Cfg} {work : α → List (Action β γ)} {s : Pool α β γ}
    (hc : s.crashed = true) : enabled cfg work s = [] := by
  unfold enabled
  rw [List.filter_eq_nil_iff]
  intro a _
  simp [step, hc]

theorem exec_nil (cfg : Cfg) (work : α → List (Action β γ)) (s : Pool α β γ) :
    exec cfg work s [] = s := rfl

theorem exec_cons (cfg : Cfg) (work : α → List (Action β γ)) (s : Pool α β γ) (k : Nat)
    (sched : List Nat) :
    exec cfg work s (k :: sched) = exec cfg work (next cfg work s k) sched := rfl

theorem exec_stuck {cfg : Cfg} {work : α → List (Action β γ)} {s : Pool α β γ}
    (h : enabled cfg work s = []) (sched : List Nat) : exec cfg work s sched = s := by
  induction sched with
  | nil => rfl
  | cons k sched ih =>
    rw [exec_cons]
    have : next cfg work s k = s := by
      rcases next_cases cfg work s k with h' | h'
      · exact h'.2
      · unfold next
        simp [h]
    rw [this, ih]

/-- A property kept by every step holds after every schedule. -/
theorem exec_induction {cfg : Cfg} {work : α → List (Action β γ)} (P : Pool α β γ → Prop)
    (hstep : ∀ s s', P s → Step cfg work s s' → P s') (s : Pool α β γ) (h : P s)
    (sched : List Nat) : P (exec cfg work s sched) := by
  induction sched generalizing s with
  | nil => exact h
  | cons k sched ih =>
    rw [exec_cons]
    apply ih
    rcases next_cases cfg work s k with h' | h'
    · rw [h'.2]
      exact h
    · exact hstep _ _ h h'

/-- A schedule either ends in a state where nothing can move, or has used up one
unit of fuel per entry. -/
theorem exec_fuel (cfg : Cfg) (work : α → List (Action β γ)) (s : Pool α β γ)
    (sched : List Nat) :
    enabled cfg work (exec cfg work s sched) = [] ∨
      fuel work (exec cfg work s sched) + sched.length ≤ fuel work s := by
  induction sched generalizing s with
  | nil => exact Or.inr (by simp [exec_nil])
  | cons k sched ih =>
    rw [exec_cons]
    rcases next_cases cfg work s k with h' | h'
    · left
      rw [h'.2, exec_stuck h'.1]
      exact h'.1
    · rcases ih (next cfg work s k) with h | h
      · exact Or.inl h
      · right
        have := fuel_step h'
        simp only [List.length_cons]
        omega

theorem fuel_pos (work : α → List (Action β γ)) {s : Pool α β γ} (hc : s.crashed = false) :
    0 < fuel work s := by
  simp [fuel, hc]

/-- A schedule at least as long as the fuel ends in a state where nothing can move. -/
theorem exec_stuck_of_fuel (cfg : Cfg) (work : α → List (Action β γ)) (s : Pool α β γ)
    (sched : List Nat) (hlen : fuel work s ≤ sched.length) :
    enabled cfg work (exec cfg work s sched) = [] := by
  rcases exec_fuel cfg work s sched with h | h
  · exact h
  · cases hc : (exec cfg work s sched).crashed with
    | true => exact crashed_stuck hc
    | false =>
      have := fuel_pos work hc
      omega

end RunFacts

section PoolFacts

variable {α β γ : Type}

theorem start_coherent (src : List α) (n : Nat) :
    Coherent (Pool.start src n : Pool α β γ) := by
  refine ⟨?_, ?_, ?_, ?_, ?_, ?_⟩
  · show (n : Int) = liveCount (List.replicate n (Worker.recv : Worker β γ))
    congr 1
    induction n with
    | zero => rfl
    | succ n ih =>
      rw [List.replicate_succ]
      simp only [liveCount, List.map_cons, List.sum_cons, live_recv] at ih ⊢
      omega
  · simp [Pool.start]
  · simp [Pool.start]
  · intro h
    have := List.eq_of_mem_replicate h
    cases this
  · simp [Pool.start]
  · simp [Pool.start]

theorem busyCount_replicate (n : Nat) :
    busyCount (List.replicate n (Worker.recv : Worker β γ)) = 0 := by
  induction n with
  | zero => rfl
  | succ n ih =>
    rw [List.replicate_succ]
    simp only [busyCount, List.map_cons, List.sum_cons, Worker.load] at ih ⊢
    omega

theorem start_buffered {cfg : Cfg} {work : α → List (Action β γ)} {src : List α} {n : Nat}
    (hfit : cfg.Fits work src n) : Buffered cfg work n (Pool.start src n : Pool α β γ) := by
  intro hg _
  have := hfit.input
  simp only [hg, if_true] at this
  rcases this with h | ⟨hcap, hone, hsum⟩
  · left
    simpa [Pool.start] using h
  · right
    refine ⟨hcap, hone, ?_, by simp [Pool.start], ?_⟩
    · intro w hw
      have := List.eq_of_mem_replicate hw
      rw [this]
      simp [Worker.todo]
    · simp only [Pool.start, List.length_nil, busyCount_replicate]
      omega

theorem pending_replicate (n : Nat) :
    pending (List.replicate n (Worker.recv : Worker β γ)) = [] := by
  induction n with
  | zero => rfl
  | succ n ih =>
    rw [List.replicate_succ]
    simp only [pending, List.flatMap_cons, todo_recv, List.nil_append] at ih ⊢
    exact ih

theorem start_accounted (work : α → List (Action β γ)) (src : List α) (n : Nat) :
    Accounted work src (Pool.start src n) := by
  unfold Accounted
  simp [Pool.start, Pool.hist, pending_replicate]

theorem start_ordered (work : α → List (Action β γ)) (src : List α) (n : Nat) :
    Ordered work src (Pool.start src n) := fun _ hx => Or.inl hx

/-- The control, data and order invariants and the number of workers hold along
every schedule. -/
theorem exec_sound (cfg : Cfg) (work : α → List (Action β γ)) (src : List α) (n : Nat)
    (sched : List Nat) :
    Coherent (exec cfg work (Pool.start src n) sched) ∧
      Accounted work src (exec cfg work (Pool.start src n) sched) ∧
      Ordered work src (exec cfg work (Pool.start src n) sched) ∧
      (exec cfg work (Pool.start src n) sched).workers.length = n := by
  refine exec_induction
    (fun s => Coherent s ∧ Accounted work src s ∧ Ordered work src s ∧ s.workers.length = n)
    ?_ _ ⟨start_coherent src n, start_accounted work src n, start_ordered work src n, ?_⟩ sched
  · intro s s' h hs
    exact ⟨coherent_step h.1 hs, accounted_step h.2.1 hs, ordered_step h.2.2.1 hs,
      (length_step hs).trans h.2.2.2⟩
  · simp [Pool.start]

/-- The buffer invariant holds along every schedule of a pool whose input fits. -/
theorem exec_buffered (cfg : Cfg) {work : α → List (Action β γ)} {src : List α} {n : Nat}
    (hfit : cfg.Fits work src n) (sched : List Nat) :
    Buffered cfg work n (exec cfg work (Pool.start src n) sched) :=
  exec_induction (Buffered cfg work n) (fun _ _ h hs => buffered_step h hs) _
    (start_buffered hfit) sched

/-- A pool fed by a loop of its own function never waits for an upstream. -/
theorem exec_more (cfg : Cfg) (work : α → List (Action β γ)) (src : List α) (n : Nat)
    (sched : List Nat) : (exec cfg work (Pool.start src n) sched).more = false :=
  exec_induction (fun s => s.more = false) (fun _ _ h hs => (more_step hs).trans h) _ rfl sched

/-- A step crashes only by a send on the closed output or a panic in a body; the
first never happens. -/
theorem crashed_step {cfg : Cfg} {work : α → List (Action β γ)} {all : List α}
    {s s' : Pool α β γ} (hcoh : Coherent s) (hacc : Accounted work all s)
    (hsafe : ∀ x ∈ all, Action.panic ∉ work x) (hc : s.crashed = false)
    (hs : Step cfg work s s') : s'.crashed = false := by
  cases hs with
  | sendClosed i y t _ hw hcl =>
    have h1 := hcoh.closed_live hcl
    have h2 := live_le_liveCount hw
    rw [live_busy] at h2
    omega
  | panic i t _ hw =>
    obtain ⟨x, hx, hmem⟩ := busy_head_mem hacc hw
    exact absurd hmem (hsafe x hx)
  | _ => exact hc

theorem exec_not_crashed (cfg : Cfg) (work : α → List (Action β γ)) {src : List α} (n : Nat)
    (hsafe : ∀ x ∈ src, Action.panic ∉ work x) (sched : List Nat) :
    (exec cfg work (Pool.start src n) sched).crashed = false := by
  have := @exec_induction _ _ _ cfg work
    (fun s => Coherent s ∧ Accounted work src s ∧ s.crashed = false)
    (fun s s' h hs =>
      ⟨coherent_step h.1 hs, accounted_step h.2.1 hs, crashed_step h.1 h.2.1 hsafe h.2.2 hs⟩)
    _ ⟨start_coherent src n, start_accounted work src n, rfl⟩ sched
  exact this.2.2

theorem pending_done {l : List (Worker β γ)} (h : ∀ w ∈ l, w = .done) : pending l = [] := by
  induction l with
  | nil => rfl
  | cons a l ih =>
    have ha := h a (List.mem_cons_self _ _)
    subst ha
    simpa [pending, todo_done] using ih (fun w hw => h w (List.mem_cons_of_mem _ hw))

theorem sends_map_send (l : List β) : sends (l.map (Action.send : β → Action β γ)) = l := by
  induction l with
  | nil => rfl
  | cons a l ih => simpa [sends, Action.sent] using ih

theorem sends_map_call (l : List γ) : sends (l.map (Action.call : γ → Action β γ)) = [] := by
  induction l with
  | nil => rfl
  | cons a l ih =>
    simp only [sends, List.map_cons, List.filterMap_cons, Action.sent] at ih ⊢
    exact ih

theorem calls_map_send (l : List β) : calls (l.map (Action.send : β → Action β γ)) = [] := by
  induction l with
  | nil => rfl
  | cons a l ih =>
    simp only [calls, List.map_cons, List.filterMap_cons, Action.called] at ih ⊢
    exact ih

theorem calls_map_call (l : List γ) : calls (l.map (Action.call : γ → Action β γ)) = l := by
  induction l with
  | nil => rfl
  | cons a l ih => simpa [calls, Action.called] using ih

theorem sends_flatMap (work : α → List (Action β γ)) (l : List α) :
    sends (l.flatMap work) = l.flatMap fun x => sends (work x) := by
  induction l with
  | nil => rfl
  | cons a l ih =>
    simp only [List.flatMap_cons, sends, List.filterMap_append] at ih ⊢
    rw [ih]

theorem calls_flatMap (work : α → List (Action β γ)) (l : List α) :
    calls (l.flatMap work) = l.flatMap fun x => calls (work x) := by
  induction l with
  | nil => rfl
  | cons a l ih =>
    simp only [List.flatMap_cons, calls, List.filterMap_append] at ih ⊢
    rw [ih]

/-- In a completed pool the operations performed are those of the bodies. -/
theorem complete_accounted {work : α → List (Action β γ)} {all : List α} {s : Pool α β γ}
    (hacc : Accounted work all s) (hdone : s.complete) :
    List.Perm (s.recvd.map Action.send ++ s.log.map Action.call) (all.flatMap work) := by
  obtain ⟨_, hsrc, hinq, _, hall, _, hout, _, _⟩ := hdone
  unfold Accounted at hacc
  simpa [Pool.hist, hsrc, hinq, hout, pending_done hall] using hacc

theorem complete_recvd {work : α → List (Action β γ)} {all : List α} {s : Pool α β γ}
    (hacc : Accounted work all s) (hdone : s.complete) :
    List.Perm s.recvd (all.flatMap fun x => sends (work x)) := by
  have := (complete_accounted hacc hdone).filterMap Action.sent
  rw [List.filterMap_append] at this
  have h1 := sends_map_send (γ := γ) s.recvd
  have h2 := sends_map_call (β := β) s.log
  have h3 := sends_flatMap work all
  unfold sends at h1 h2 h3
  rw [h1, h2, h3, List.append_nil] at this
  exact this

theorem complete_log {work : α → List (Action β γ)} {all : List α} {s : Pool α β γ}
    (hacc : Accounted work all s) (hdone : s.complete) :
    List.Perm s.log (all.flatMap fun x => calls (work x)) := by
  have := (complete_accounted hacc hdone).filterMap Action.called
  rw [List.filterMap_append] at this
  have h1 := calls_map_send (γ := γ) s.recvd
  have h2 := calls_map_call (β := β) s.log
  have h3 := calls_flatMap work all
  unfold calls at h1 h2 h3
  rw [h1, h2, h3, List.nil_append] at this
  exact this

theorem complete_ordered {work : α → List (Action β γ)} {all : List α} {s : Pool α β γ}
    (hord : Ordered work all s) (hdone : s.complete) :
    ∀ x ∈ all, (sends (work x)).Sublist s.recvd := by
  obtain ⟨_, hsrc, hinq, _, hall, _, hout, _, _⟩ := hdone
  intro x hx
  have hh : s.hist = s.recvd := by simp [Pool.hist, hout]
  rcases hord x hx with h | h | ⟨pre, t, hm, _, _⟩ | h
  · simp [hsrc] at h
  · simp [hinq] at h
  · have := hall _ hm
    cases this
  · rwa [hh] at h

/-- Main theorem of the pool: with at least one worker, channels that fit, and
bodies that do not panic, every schedule at least as long as the fuel runs the
pool to completion; the values received are, up to order, the sends of the
bodies of the input, the sends of each body appear in their order, and
the calls made are, up to order, the calls of the bodies. -/
theorem pool_run (cfg : Cfg) (work : α → List (Action β γ)) {src : List α} {n : Nat}
    (hn : 0 < n) (hfit : cfg.Fits work src n) (hsafe : ∀ x ∈ src, Action.panic ∉ work x)
    (sched : List Nat) (hlen : fuel work (Pool.start src n : Pool α β γ) ≤ sched.length) :
    (exec cfg work (Pool.start src n) sched).complete ∧
      List.Perm (exec cfg work (Pool.start src n) sched).recvd
        (src.flatMap fun x => sends (work x)) ∧
      (∀ x ∈ src, (sends (work x)).Sublist (exec cfg work (Pool.start src n) sched).recvd) ∧
      List.Perm (exec cfg work (Pool.start src n) sched).log
        (src.flatMap fun x => calls (work x)) := by
  have hin : cfg.gated = false → 0 < cfg.capIn := by
    intro hg
    have := hfit.input
    simpa [hg] using this
  obtain ⟨hcoh, hacc, hord, hlen'⟩ := exec_sound cfg work src n sched
  have hbuf := exec_buffered cfg hfit sched
  have hc := exec_not_crashed cfg work n hsafe sched
  have hstuck := exec_stuck_of_fuel cfg work (Pool.start src n) sched hlen
  have hdone := complete_of_stuck hcoh hbuf hacc (by omega) hin hfit.output hc
      (exec_more cfg work src n sched) hstuck
  exact ⟨hdone, complete_recvd hacc hdone, complete_ordered hord hdone, complete_log hacc hdone⟩

/-- A body that panics: every schedule at least as long as the fuel ends in the
crash of the process. -/
theorem pool_crash (cfg : Cfg) (work : α → List (Action β γ)) {src : List α} {n : Nat}
    (hn : 0 < n) (hfit : cfg.Fits work src n) (hbad : ∃ x ∈ src, Action.panic ∈ work x)
    (sched : List Nat) (hlen : fuel work (Pool.start src n : Pool α β γ) ≤ sched.length) :
    (exec cfg work (Pool.start src n) sched).crashed = true := by
  have hin : cfg.gated = false → 0 < cfg.capIn := by
    intro hg
    have := hfit.input
    simpa [hg] using this
  obtain ⟨hcoh, hacc, _, hlen'⟩ := exec_sound cfg work src n sched
  have hbuf := exec_buffered cfg hfit sched
  have hstuck := exec_stuck_of_fuel cfg work (Pool.start src n) sched hlen
  cases hc : (exec cfg work (Pool.start src n) sched).crashed with
  | true => rfl
  | false =>
    exfalso
    have hdone := complete_of_stuck hcoh hbuf hacc (by omega) hin hfit.output hc
      (exec_more cfg work src n sched) hstuck
    obtain ⟨x, hx, hmem⟩ := hbad
    have h1 : Action.panic ∈ src.flatMap work := List.mem_flatMap.2 ⟨x, hx, hmem⟩
    have h2 := (List.Perm.mem_iff (complete_accounted hacc hdone)).2 h1
    simp at h2

end PoolFacts

section SplitFacts

theorem index_none {s : List Char} {sep : Char} (h : sep ∉ s) : Index s sep = none := by
  induction s with
  | nil => rfl
  | cons c cs ih =>
    have hc : c ≠ sep := fun e => h (by simp [e])
    have hcs : sep ∉ cs := fun e => h (List.mem_cons_of_mem _ e)
    simp [Index, hc, ih hcs]

theorem index_first {a b : List Char} {sep : Char} (h : sep ∉ a) :
    Index (a ++ sep :: b) sep = some a.length := by
  induction a with
  | nil => simp [Index]
  | cons c cs ih =>
    have hc : c ≠ sep := fun e => h (by simp [e])
    have hcs : sep ∉ cs := fun e => h (List.mem_cons_of_mem _ e)
    simp [Index, hc, ih hcs]

/-- A string without the separator is not cut. -/
theorem splitN_two_none {s : String} {sep : Char} (h : sep ∉ s.data) :
    SplitN s sep 2 = [s] := by
  unfold SplitN
  simp only [OfNat.ofNat_ne_zero, if_false]
  cases hk : min 2 (s.length + 1) - 1 with
  | zero => rfl
  | succ k => simp [genSplitLoop, index_none h]

/-- A string is cut at its first separator, in two. -/
theorem splitN_two_first {a b : List Char} {sep : Char} (h : sep ∉ a) :
    SplitN (String.mk (a ++ sep :: b)) sep 2 = [String.mk a, String.mk b] := by
  unfold SplitN
  have hk : min 2 ((String.mk (a ++ sep :: b)).length + 1) - 1 = 1 := by
    simp [String.length]
    omega
  rw [hk]
  simp [genSplitLoop, index_first h]

/-- Every string either lacks the separator or splits at its first occurrence. -/
theorem split_first (s : List Char) (sep : Char) :
    sep ∉ s ∨ ∃ a b, s = a ++ sep :: b ∧ sep ∉ a := by
  induction s with
  | nil => exact Or.inl (by simp)
  | cons c cs ih =>
    by_cases hc : c = sep
    · exact Or.inr ⟨[], cs, by simp [hc], by simp⟩
    · rcases ih with h | ⟨a, b, hab, ha⟩
      · left
        intro hm
        rcases List.mem_cons.1 hm with e | e
        · exact hc e.symm
        · exact h e
      · right
        refine ⟨c :: a, b, by simp [hab], ?_⟩
        intro hm
        rcases List.mem_cons.1 hm with e | e
        · exact hc e.symm
        · exact ha e

end SplitFacts

section CheckManifestFacts

theorem checkManifest_no_slash (p : Platform) {image : String} (h : '/' ∉ image.data) :
    (CheckManifest p image).1.isSome = true ∧ (CheckManifest p image).2 = [] := by
  unfold CheckManifest
  rw [splitN_two_none h]
  exact ⟨rfl, rfl⟩

theorem checkManifest_no_colon (p : Platform) {image : String} {a r : List Char}
    (hd : image.data = a ++ '/' :: r) (ha : '/' ∉ a) (hr : ':' ∉ r) :
    (CheckManifest p image).1.isSome = true ∧ (CheckManifest p image).2 = [] := by
  have himg : image = String.mk (a ++ '/' :: r) := by
    cases image
    simp only at hd
    rw [hd]
  unfold CheckManifest
  rw [himg, splitN_two_first ha]
  simp only
  rw [splitN_two_none (s := String.mk r) hr]
  exact ⟨rfl, rfl⟩

theorem checkManifest_fetch (p : Platform) (client : Client)
    (hclient : NewIngressClient p = .ok client) {image : String} {a b c : List Char}
    (hd : image.data = a ++ '/' :: (b ++ ':' :: c)) (ha : '/' ∉ a) (hb : ':' ∉ b) :
    (CheckManifest p image).2 = [⟨String.mk a, String.mk b, String.mk c⟩] ∧
      ((CheckManifest p image).1.isSome = true ↔
        (client.GetManifest (String.mk a) (String.mk b) (String.mk c)).isSome = true) := by
  have himg : image = String.mk (a ++ '/' :: (b ++ ':' :: c)) := by
    cases image
    simp only at hd
    rw [hd]
  unfold CheckManifest
  rw [himg, splitN_two_first ha]
  simp only
  rw [splitN_two_first hb]
  simp only [hclient]
  cases client.GetManifest (String.mk a) (String.mk b) (String.mk c) <;> simp

end CheckManifestFacts

/-- C6. `CheckManifest(image)`, given a registry client: if `image` has no `/`, or
the part after its first `/` has no `:`, an error is returned and no manifest is
fetched; otherwise (every string falls in one of the three cases) exactly one
`GetManifest` call is made, with the text before the first `/` as project, the
text between that `/` and the first `:` after it as repository and everything
after that `:` as tag, and an error is returned exactly when that fetch fails.
In particular `a:b/c` is rejected. -/
theorem checkManifest_parse (p : Platform) (client : Client)
    (hclient : NewIngressClient p = .ok client) (image : String) :
    (('/' ∉ image.data ∨ ∃ a r, image.data = a ++ '/' :: r ∧ '/' ∉ a ∧ ':' ∉ r) →
      (CheckManifest p image).1.isSome = true ∧ (CheckManifest p image).2 = []) ∧
    (∀ a b c, image.data = a ++ '/' :: (b ++ ':' :: c) → '/' ∉ a → ':' ∉ b →
      (CheckManifest p image).2 = [⟨String.mk a, String.mk b, String.mk c⟩] ∧
      ((CheckManifest p image).1.isSome = true ↔
        (client.GetManifest (String.mk a) (String.mk b) (String.mk c)).isSome = true)) ∧
    ('/' ∉ image.data ∨ (∃ a r, image.data = a ++ '/' :: r ∧ '/' ∉ a ∧ ':' ∉ r) ∨
      ∃ a b c, image.data = a ++ '/' :: (b ++ ':' :: c) ∧ '/' ∉ a ∧ ':' ∉ b) ∧
    ((CheckManifest p "a:b/c").1.isSome = true ∧ (CheckManifest p "a:b/c").2 = []) := by
  refine ⟨?_, ?_, ?_, ?_⟩
  · rintro (h | ⟨a, r, hd, ha, hr⟩)
    · exact checkManifest_no_slash p h
    · exact checkManifest_no_colon p hd ha hr
  · intro a b c hd ha hb
    exact checkManifest_fetch p client hclient hd ha hb
  · rcases split_first image.data '/' with h | ⟨a, r, hd, ha⟩
    · exact Or.inl h
    · rcases split_first r ':' with hr | ⟨b, c, hr, hb⟩
      · exact Or.inr (Or.inl ⟨a, r, hd, ha, hr⟩)
      · exact Or.inr (Or.inr ⟨a, b, c, by rw [hd, hr], ha, hb⟩)
  · exact checkManifest_no_colon p (a := "a:b".data) (r := "c".data) rfl (by decide) (by decide)

/-- C6 at `p1/img:latest` on the scenario registry, where the manifest of `latest`
cannot be fetched: one fetch, of `(p1, img, latest)`, and an error. -/
theorem checkManifest_parse_witness :
    (CheckManifest scenarioPlatform "p1/img:latest").2 = [⟨"p1", "img", "latest"⟩] ∧
      (CheckManifest scenarioPlatform "p1/img:latest").1.isSome = true :=
  have h := (checkManifest_parse scenarioPlatform scenarioClient rfl "p1/img:latest").2.1
    "p1".data "img".data "latest".data rfl (by decide) (by decide)
  ⟨h.1, h.2.2 rfl⟩

section NormalizeFacts

theorem normalize_slash (projectName : String) {image : Image} {a b : List Char}
    (hd : image.Name.data = a ++ '/' :: b) (ha : '/' ∉ a) :
    normalize projectName image =
      some { image with ProjectName := projectName, Name := String.mk b } := by
  have hname : image.Name = String.mk (a ++ '/' :: b) := by
    cases hn : image.Name
    rw [hn] at hd
    simp only at hd
    rw [hd]
  unfold normalize
  rw [hname, splitN_two_first ha]
  rfl

theorem normalize_no_slash (projectName : String) {image : Image}
    (h : '/' ∉ image.Name.data) : normalize projectName image = none := by
  unfold normalize
  rw [splitN_two_none h]
  rfl

theorem splitN_two_length (s : String) :
    1 < (SplitN s '/' 2).length ↔ '/' ∈ s.data := by
  rcases split_first s.data '/' with h | ⟨a, b, hd, ha⟩
  · rw [splitN_two_none h]
    simp [h]
  · have hs : s = String.mk (a ++ '/' :: b) := by
      cases s
      simp only at hd
      rw [hd]
    rw [hs, splitN_two_first ha]
    simp

end NormalizeFacts

/-- C10. In the `ListImages` worker, `parts[1]` of `strings.SplitN(image.Name, "/",
2)` is in range exactly when the name contains a `/`. A name with a `/` is
normalised to the text after its first `/`, whatever stands before it; a name
without one (the empty name included) makes the access fail, and the body of
the worker then panics at that image: it neither sends nor skips it. -/
theorem normalize_index (client : Client) (projectName : String) (image : Image) :
    (1 < (SplitN image.Name '/' 2).length ↔ '/' ∈ image.Name.data) ∧
    (∀ a b, image.Name.data = a ++ '/' :: b → '/' ∉ a →
      normalize projectName image =
        some { image with ProjectName := projectName, Name := String.mk b }) ∧
    ('/' ∉ image.Name.data → normalize projectName image = none) ∧
    (normalize projectName { image with Name := "" } = none) ∧
    (image ∈ (client.ListImages projectName).1 → '/' ∉ image.Name.data →
      Action.panic ∈ imagesBody client projectName) := by
  refine ⟨splitN_two_length _, ?_, normalize_no_slash projectName, ?_, ?_⟩
  · intro a b hd ha
    exact normalize_slash projectName hd ha
  · exact normalize_no_slash projectName (by simp)
  · intro hmem hno
    unfold imagesBody
    rw [List.mem_map]
    exact ⟨image, hmem, by rw [normalize_no_slash projectName hno]⟩

/-- C10 at two names: `q/img/v2` listed under project `p1` is normalised to
`img/v2`, and `img` makes the access fail. -/
theorem normalize_index_witness :
    normalize "p1" ⟨"", "q/img/v2", "x"⟩ = some ⟨"p1", "img/v2", "x"⟩ ∧
      normalize "p1" ⟨"", "img", "x"⟩ = none :=
  ⟨(normalize_index scenarioClient "p1" ⟨"", "q/img/v2", "x"⟩).2.1 "q".data "img/v2".data rfl
      (by decide),
    (normalize_index scenarioClient "p1" ⟨"", "img", "x"⟩).2.2.1 (by decide)⟩

section BulkDeleteFacts

theorem spawn_pos {α β γ : Type} (src : List α) {concurrency : Int} (h : 1 ≤ concurrency) :
    (spawn src concurrency : Pool α β γ) = Pool.start src concurrency.toNat ∧
      0 < concurrency.toNat := by
  unfold spawn
  have : ¬ concurrency < 0 := by omega
  simp only [this, if_false, true_and]
  omega

theorem deleteCfg_fits (client : Client) (tags : List Tag) (n : Nat) :
    deleteCfg.Fits (deleteBody client) tags n := by
  refine ⟨?_, Or.inr ?_⟩
  · simp [deleteCfg, maxHarborTagsChannelLength]
  · intro x _
    rfl

theorem deleteBody_safe (client : Client) (tags : List Tag) :
    ∀ x ∈ tags, Action.panic ∉ deleteBody client x := by
  intro x _
  simp [deleteBody]

theorem deleteBody_calls (client : Client) (tags : List Tag) :
    (tags.flatMap fun x => calls (deleteBody client x)) =
      tags.map fun tag => { tag := tag, result := client.DeleteTag tag } := by
  induction tags with
  | nil => rfl
  | cons a l ih =>
    simp only [List.flatMap_cons, List.map_cons, ih]
    rfl

/-- The count check of `BulkDelete` fails: an error, and not one `DeleteTag`. -/
theorem bulkDelete_refused (p : Platform) (concurrency : Int) {file : String}
    {f : IntegrityCheckFile} (expectedCount : Int) (sched : List Nat)
    (hfile : p.readFile file = .ok f) (hpos : 0 < expectedCount)
    (hne : expectedCount ≠ f.Count) :
    (∃ e, (BulkDelete p concurrency file expectedCount sched).outcome = .returned (some e)) ∧
      (BulkDelete p concurrency file expectedCount sched).calls = [] := by
  unfold BulkDelete
  cases hcl : NewIngressClient p with
  | error e => exact ⟨⟨_, rfl⟩, rfl⟩
  | ok client =>
    have hgate : expectedCount > 0 ∧ f.Count ≠ expectedCount := ⟨hpos, fun e => hne e.symm⟩
    simp only [parseIntegrityCheckFile, hfile]
    rw [if_pos hgate]
    exact ⟨⟨_, rfl⟩, rfl⟩

/-- The count check of `BulkDelete` passes and there is a worker: every schedule
long enough ends with `nil` returned and one `DeleteTag` per listed tag. -/
theorem bulkDelete_runs (p : Platform) {client : Client} {concurrency : Int} {file : String}
    {f : IntegrityCheckFile} {expectedCount : Int} (sched : List Nat)
    (hclient : NewIngressClient p = .ok client) (hfile : p.readFile file = .ok f)
    (hgate : expectedCount ≤ 0 ∨ expectedCount = f.Count) (hn : 1 ≤ concurrency)
    (hlen : fuel (deleteBody client) (spawn f.Artifacts concurrency : Pool Tag Unit DeleteCall)
      ≤ sched.length) :
    (BulkDelete p concurrency file expectedCount sched).outcome = .returned none ∧
      List.Perm (BulkDelete p concurrency file expectedCount sched).calls
        (f.Artifacts.map fun tag => { tag := tag, result := client.DeleteTag tag }) := by
  obtain ⟨hsp, hpos⟩ := spawn_pos (β := Unit) (γ := DeleteCall) f.Artifacts hn
  rw [hsp] at hlen
  obtain ⟨hdone, _, _, hlog⟩ := pool_run deleteCfg (deleteBody client) hpos
    (deleteCfg_fits client f.Artifacts _) (deleteBody_safe client f.Artifacts) sched hlen
  rw [deleteBody_calls] at hlog
  have hgate' : ¬ (expectedCount > 0 ∧ f.Count ≠ expectedCount) := by
    rintro ⟨h1, h2⟩
    rcases hgate with h | h
    · omega
    · exact h2 h.symm
  unfold BulkDelete
  simp only [hclient, parseIntegrityCheckFile, hfile]
  rw [if_neg hgate']
  simp only [hsp]
  refine ⟨?_, hlog⟩
  simp [hdone.1, hdone.2.2.2.2.2.2.2.2]

end BulkDeleteFacts

/-- C1. The file parses with declared count `C`, and `expectedCount > 0` differs
from `C`: `BulkDelete` returns an error and makes no `DeleteTag` call, whatever
the concurrency, the listed tags and the schedule. -/
theorem bulkDelete_count_mismatch (p : Platform) (concurrency : Int) (file : String)
    (f : IntegrityCheckFile) (expectedCount : Int) (sched : List Nat)
    (hfile : p.readFile file = .ok f) (hpos : 0 < expectedCount)
    (hne : expectedCount ≠ f.Count) :
    (∃ e, (BulkDelete p concurrency file expectedCount sched).outcome = .returned (some e)) ∧
      (BulkDelete p concurrency file expectedCount sched).calls = [] :=
  bulkDelete_refused p concurrency expectedCount sched hfile hpos hne

/-- C1 on the scenario file, which declares `count: 5` and lists 5 tags, with
`expectedCount = 3` and two workers. -/
theorem bulkDelete_count_mismatch_witness :
    (∃ e, (BulkDelete scenarioPlatform 2 "broken.yaml" 3 (List.replicate 40 0)).outcome =
        .returned (some e)) ∧
      (BulkDelete scenarioPlatform 2 "broken.yaml" 3 (List.replicate 40 0)).calls = [] :=
  bulkDelete_count_mismatch scenarioPlatform 2 "broken.yaml" ⟨scenarioTags, 5⟩ 3
    (List.replicate 40 0) rfl (by decide) (by decide)

/-- C2, refuted: on the scenario file (declared count 5) with `expectedCount = 0`,
which differs from 5, one worker has called `DeleteTag` after three steps. -/
theorem bulkDelete_zero_expected_deletes :
    (0 : Int) ≠ 5 ∧ (BulkDelete scenarioPlatform 1 "broken.yaml" 0 [0, 1, 1]).calls ≠ [] := by
  decide

/-- C2, amended. The file parses with declared count `C ≠ expectedCount`. When
`expectedCount > 0`, `BulkDelete` makes no `DeleteTag` call. When
`expectedCount ≤ 0` the count is not checked: with at least one worker, every
schedule long enough ends with `nil` returned and one `DeleteTag` call per
listed tag. -/
theorem bulkDelete_count_check (p : Platform) (client : Client) (concurrency : Int)
    (file : String) (f : IntegrityCheckFile) (expectedCount : Int) (sched : List Nat)
    (hclient : NewIngressClient p = .ok client) (hfile : p.readFile file = .ok f)
    (hne : expectedCount ≠ f.Count) :
    (0 < expectedCount → (BulkDelete p concurrency file expectedCount sched).calls = []) ∧
    (expectedCount ≤ 0 → 1 ≤ concurrency →
      fuel (deleteBody client) (spawn f.Artifacts concurrency : Pool Tag Unit DeleteCall)
        ≤ sched.length →
      (BulkDelete p concurrency file expectedCount sched).outcome = .returned none ∧
        List.Perm ((BulkDelete p concurrency file expectedCount sched).calls.map (·.tag))
          f.Artifacts) := by
  refine ⟨fun hpos => (bulkDelete_refused p concurrency expectedCount sched hfile hpos hne).2,
    fun hle hn hlen => ?_⟩
  obtain ⟨h1, h2⟩ := bulkDelete_runs p sched hclient hfile (Or.inl hle) hn hlen
  refine ⟨h1, ?_⟩
  have := h2.map (·.tag)
  simpa [List.map_map, Function.comp_def] using this

/-- C2, amended, on the scenario file (declared count 5): `expectedCount = 3`
deletes nothing, `expectedCount = 0` deletes the five listed tags. -/
theorem bulkDelete_count_check_witness :
    (BulkDelete scenarioPlatform 2 "broken.yaml" 3 (List.replicate 40 0)).calls = [] ∧
      List.Perm ((BulkDelete scenarioPlatform 2 "broken.yaml" 0 (List.replicate 40 0)).calls.map
        (·.tag)) scenarioTags :=
  ⟨(bulkDelete_count_check scenarioPlatform scenarioClient 2 "broken.yaml" ⟨scenarioTags, 5⟩ 3
      (List.replicate 40 0) rfl rfl (by decide)).1 (by decide),
    ((bulkDelete_count_check scenarioPlatform scenarioClient 2 "broken.yaml" ⟨scenarioTags, 5⟩ 0
      (List.replicate 40 0) rfl rfl (by decide)).2 (by decide) (by decide) (by decide)).2⟩

/-- C5. The count check passes (`expectedCount ≤ 0` or equal to the declared
count) and there is at least one worker: on every schedule long enough
`BulkDelete` returns `nil`, and its `DeleteTag` calls are, up to order, one per
tag listed in the file, each recorded with whatever that call returned: a
failing delete changes neither the other calls nor the result. -/
theorem bulkDelete_deletes_all (p : Platform) (client : Client) (concurrency : Int)
    (file : String) (f : IntegrityCheckFile) (expectedCount : Int) (sched : List Nat)
    (hclient : NewIngressClient p = .ok client) (hfile : p.readFile file = .ok f)
    (hgate : expectedCount ≤ 0 ∨ expectedCount = f.Count) (hn : 1 ≤ concurrency)
    (hlen : fuel (deleteBody client) (spawn f.Artifacts concurrency : Pool Tag Unit DeleteCall)
      ≤ sched.length) :
    (BulkDelete p concurrency file expectedCount sched).outcome = .returned none ∧
      List.Perm ((BulkDelete p concurrency file expectedCount sched).calls.map (·.tag))
        f.Artifacts ∧
      List.Perm (BulkDelete p concurrency file expectedCount sched).calls
        (f.Artifacts.map fun tag => { tag := tag, result := client.DeleteTag tag }) := by
  obtain ⟨h1, h2⟩ := bulkDelete_runs p sched hclient hfile hgate hn hlen
  refine ⟨h1, ?_, h2⟩
  have := h2.map (·.tag)
  simpa [List.map_map, Function.comp_def] using this

/-- C5 on the scenario file with `expectedCount = 5` and two workers; the delete
of `v2` fails on this registry. -/
theorem bulkDelete_deletes_all_witness :
    (BulkDelete scenarioPlatform 2 "broken.yaml" 5 (List.replicate 40 0)).outcome =
        .returned none ∧
      List.Perm ((BulkDelete scenarioPlatform 2 "broken.yaml" 5 (List.replicate 40 0)).calls.map
        (·.tag)) scenarioTags :=
  have h := bulkDelete_deletes_all scenarioPlatform scenarioClient 2 "broken.yaml"
    ⟨scenarioTags, 5⟩ 5 (List.replicate 40 0) rfl rfl (by decide) (by decide) (by decide)
  ⟨h.1, h.2.1⟩

section TagStageFacts

theorem tagsBody_sends (client : Client) (image : Image) :
    sends (tagsBody client image) = imageTags client image :=
  sends_map_send _

theorem tagsBody_safe (client : Client) (images : List Image) :
    ∀ x ∈ images, Action.panic ∉ tagsBody client x := by
  intro x _
  simp [tagsBody]

theorem tagsCfg_fits (client : Client) (images : List Image) (n : Nat) :
    tagsCfg.Fits (tagsBody client) images n := by
  refine ⟨?_, Or.inl ?_⟩
  · simp [tagsCfg, maxHarborImagesChannelLength]
  · simp [tagsCfg, maxHarborTagsChannelLength]

/-- The tag stage over the images `images` delivered to it. -/
theorem tags_stage (client : Client) (images : List Image) {concurrency : Int}
    (hn : 1 ≤ concurrency) (sched : List Nat)
    (hlen : fuel (tagsBody client) (spawn images concurrency : Pool Image Tag Unit)
      ≤ sched.length) :
    (exec tagsCfg (tagsBody client) (spawn images concurrency) sched).complete ∧
      List.Perm (exec tagsCfg (tagsBody client) (spawn images concurrency) sched).recvd
        (images.flatMap (imageTags client)) ∧
      ∀ image ∈ images, (imageTags client image).Sublist
        (exec tagsCfg (tagsBody client) (spawn images concurrency) sched).recvd := by
  obtain ⟨hsp, hpos⟩ := spawn_pos (β := Tag) (γ := Unit) images hn
  rw [hsp] at hlen ⊢
  obtain ⟨hdone, hperm, hsub, _⟩ := pool_run tagsCfg (tagsBody client) hpos
    (tagsCfg_fits client images _) (tagsBody_safe client images) sched hlen
  simp only [tagsBody_sends] at hperm hsub
  exact ⟨hdone, hperm, hsub⟩

end TagStageFacts

section PipelineFacts

/-- A stage that ranges over the channel of a completed stage is a pool fed
with what that stage delivered, its input closed after the last item. -/
theorem downstream_complete {α β γ : Type} {up : Pool α β Unit} (h : up.complete)
    (concurrency : Int) :
    (downstream up concurrency : Pool β γ Unit) = spawn up.recvd concurrency := by
  unfold downstream
  rw [h.1, h.2.2.2.2.2.2.2.2]
  simp only [Bool.false_eq_true, if_false]
  unfold spawn
  by_cases hc : concurrency < 0
  · rw [if_pos hc]
    rfl
  · rw [if_neg hc]
    rfl

theorem fuel_spawn_perm {α β γ : Type} (work : α → List (Action β γ)) {src src' : List α}
    (h : src.Perm src') (concurrency : Int) :
    fuel work (spawn src concurrency : Pool α β γ) = fuel work (spawn src' concurrency) := by
  have hsum : (src.map fun x => bodyCost (work x) + 3).sum
      = (src'.map fun x => bodyCost (work x) + 3).sum := (h.map _).sum_eq
  unfold spawn
  split
  · rfl
  · simp only [fuel, Pool.start, hsum]

/-- The tag stage of `ListImagesWithTags` over a completed run of `ListImages`. -/
theorem listImagesWithTags_run (p : Platform) (client : Client) (concurrency : Int)
    (sched₁ sched₂ : List Nat) (images : Pool String Image Unit)
    (hclient : NewIngressClient p = .ok client)
    (himages : ListImages p concurrency sched₁ = .ok images) (hdone : images.complete)
    (hn : 1 ≤ concurrency)
    (hlen : fuel (tagsBody client) (spawn images.recvd concurrency : Pool Image Tag Unit)
      ≤ sched₂.length) :
    ∃ tags, ListImagesWithTags p concurrency sched₁ sched₂ = .ok tags ∧ tags.complete ∧
      List.Perm tags.recvd (images.recvd.flatMap (imageTags client)) ∧
      ∀ image ∈ images.recvd, (imageTags client image).Sublist tags.recvd := by
  obtain ⟨hcomplete, hperm, hsub⟩ := tags_stage client images.recvd hn sched₂ hlen
  refine ⟨_, ?_, hcomplete, hperm, hsub⟩
  unfold ListImagesWithTags
  simp only [hclient, himages, downstream_complete hdone]

end PipelineFacts

section FloodFacts

variable {α β γ : Type}

theorem pending_length_le {l : List (Worker β γ)} (h : ∀ w ∈ l, w.todo.length ≤ 1) :
    (pending l).length ≤ l.length := by
  induction l with
  | nil => simp [pending]
  | cons a l ih =>
    have ha := h a (List.mem_cons_self _ _)
    have := ih (fun w hw => h w (List.mem_cons_of_mem _ hw))
    simp only [pending, List.flatMap_cons, List.length_append, List.length_cons] at this ⊢
    omega

theorem length_flatMap_one {work : α → List (Action β γ)}
    (hone : ∀ x, ∃ y, work x = [Action.send y]) (l : List α) :
    (l.flatMap work).length = l.length := by
  induction l with
  | nil => rfl
  | cons a l ih =>
    obtain ⟨y, hy⟩ := hone a
    simp only [List.flatMap_cons, List.length_append, List.length_cons, hy, ih, List.length_nil]
    omega

/-- A gated pool whose bodies each send once and whose input exceeds both buffers
and the workers together: the feeding loop never finishes, so the output
channel is never handed out and nothing is ever read from it. -/
theorem gated_flood (cfg : Cfg) (work : α → List (Action β γ)) (all : List α) (n : Nat)
    (hg : cfg.gated = true) (hone : ∀ x, ∃ y, work x = [Action.send y])
    (hbig : cfg.capIn + cfg.capOut + n < all.length) (sched : List Nat) :
    (exec cfg work (Pool.start all n) sched).inClosed = false ∧
      (exec cfg work (Pool.start all n) sched).recvd = [] ∧
      (exec cfg work (Pool.start all n) sched).outq.length ≤ cfg.capOut := by
  have key := @exec_induction _ _ _ cfg work
    (fun s => Accounted work all s ∧ s.inClosed = false ∧ s.recvd = [] ∧ s.log = [] ∧
      s.inq.length ≤ cfg.capIn ∧ s.outq.length ≤ cfg.capOut ∧
      (∀ w ∈ s.workers, w.todo.length ≤ 1) ∧ s.workers.length = n) ?_
    (Pool.start all n)
    ⟨start_accounted work all n, rfl, rfl, rfl, by simp [Pool.start], by simp [Pool.start], ?_,
      by simp [Pool.start]⟩ sched
  · exact ⟨key.2.1, key.2.2.1, key.2.2.2.2.2.1⟩
  · intro s s' ⟨hacc, hopen, hrecv, hlog, hinq, hout, htodo, hlen⟩ hs
    have hacc' := accounted_step hacc hs
    have hsrc : s.src ≠ [] := by
      intro e
      have hl := hacc.length_eq
      simp only [List.length_append, List.length_map, length_flatMap_one hone, Pool.hist, hrecv,
        hlog, e, List.length_nil, List.append_nil] at hl
      have := pending_length_le htodo
      omega
    cases hs with
    | push x rest hc hsrc' hcap =>
      refine ⟨hacc', hopen, hrecv, hlog, ?_, hout, htodo, hlen⟩
      simp only [List.length_append, List.length_cons, List.length_nil]
      omega
    | closeIn hc hsrc' hopen' => exact absurd hsrc' hsrc
    | take i x rest hc hw hinq' =>
      refine ⟨hacc', hopen, hrecv, hlog, ?_, hout, ?_, ?_⟩
      · simp only
        rw [hinq'] at hinq
        simp only [List.length_cons] at hinq
        omega
      · obtain ⟨y, hy⟩ := hone x
        exact todo_mem_set htodo (by rw [todo_settle, hy]; simp)
      · simpa using hlen
    | leave i hc hw hinq' hcl => simp [hopen] at hcl
    | again i hc hw =>
      exact ⟨hacc', hopen, hrecv, hlog, hinq, hout, todo_mem_set htodo (by simp [todo_recv]),
        by simpa using hlen⟩
    | send i y t hc hw hopen' hcap =>
      have ht := htodo _ (mem_of_getElem? hw)
      rw [todo_busy] at ht
      refine ⟨hacc', hopen, hrecv, hlog, hinq, ?_, todo_mem_set htodo ?_, by simpa using hlen⟩
      · simp only [List.length_append, List.length_cons, List.length_nil]
        omega
      · rw [todo_settle]
        simp only [List.length_cons] at ht
        omega
    | sendClosed i y t hc hw hcl => exact ⟨hacc', hopen, hrecv, hlog, hinq, hout, htodo, hlen⟩
    | call i c t hc hw =>
      obtain ⟨x, _, hmem⟩ := busy_head_mem hacc hw
      obtain ⟨y, hy⟩ := hone x
      simp [hy] at hmem
    | panic i t hc hw => exact ⟨hacc', hopen, hrecv, hlog, hinq, hout, htodo, hlen⟩
    | closeOut hc hopen' hwg hsync => exact ⟨hacc', hopen, hrecv, hlog, hinq, hout, htodo, hlen⟩
    | read y rest hc hrd hgate hout' => simp [hopen] at hgate; simp [hg] at hgate
    | readEnd hc hrd hgate hout' hcl => simp [hopen] at hgate; simp [hg] at hgate
  · intro w hw
    have := List.eq_of_mem_replicate hw
    rw [this]
    simp [todo_recv]

end FloodFacts

section VerifyFacts

theorem verifyBody_sends (client : Client) (tags : List Tag) :
    (tags.flatMap fun x => sends (verifyBody client x)) =
      tags.filter fun tag =>
        (client.GetManifest tag.ProjectName tag.RepositoryName tag.Name).isSome := by
  induction tags with
  | nil => rfl
  | cons a l ih =>
    rw [List.flatMap_cons, ih, List.filter_cons]
    unfold verifyBody
    cases client.GetManifest a.ProjectName a.RepositoryName a.Name <;>
      simp [sends, Action.sent]

theorem verifyBody_safe (client : Client) (tags : List Tag) :
    ∀ x ∈ tags, Action.panic ∉ verifyBody client x := by
  intro x _
  unfold verifyBody
  cases client.GetManifest x.ProjectName x.RepositoryName x.Name <;> simp

theorem verifyCfg_fits (client : Client) (tags : List Tag) (n : Nat) :
    verifyCfg.Fits (verifyBody client) tags n := by
  refine ⟨?_, Or.inl ?_⟩
  · simp [verifyCfg, maxHarborTagsChannelLength]
  · simp [verifyCfg, maxHarborTagsChannelLength]

theorem verifyBody_length (client : Client) (tag : Tag) :
    (verifyBody client tag).length ≤ 1 := by
  unfold verifyBody
  cases client.GetManifest tag.ProjectName tag.RepositoryName tag.Name <;> simp

theorem verifyFileCfg_fits (client : Client) {tags : List Tag} {n : Nat}
    (h : tags.length ≤ 2 * maxHarborTagsChannelLength + n) :
    verifyFileCfg.Fits (verifyBody client) tags n := by
  refine ⟨?_, Or.inl ?_⟩
  · simp only [verifyFileCfg, if_true]
    right
    refine ⟨by simp [maxHarborTagsChannelLength], verifyBody_length client, ?_⟩
    omega
  · simp [verifyFileCfg, maxHarborTagsChannelLength]

/-- The verification pool, under either of its two channel set-ups. -/
theorem verify_stage (cfg : Cfg) (client : Client) (tags : List Tag) {concurrency : Int}
    (hfit : cfg.Fits (verifyBody client) tags concurrency.toNat) (hn : 1 ≤ concurrency)
    (sched : List Nat)
    (hlen : fuel (verifyBody client) (spawn tags concurrency : Pool Tag Tag Unit)
      ≤ sched.length) :
    (exec cfg (verifyBody client) (spawn tags concurrency) sched).complete ∧
      List.Perm (exec cfg (verifyBody client) (spawn tags concurrency) sched).recvd
        (tags.filter fun tag =>
          (client.GetManifest tag.ProjectName tag.RepositoryName tag.Name).isSome) := by
  obtain ⟨hsp, hpos⟩ := spawn_pos (β := Tag) (γ := Unit) tags hn
  rw [hsp] at hlen ⊢
  obtain ⟨hdone, hperm, _, _⟩ := pool_run cfg (verifyBody client) hpos hfit
    (verifyBody_safe client tags) sched hlen
  rw [verifyBody_sends] at hperm
  exact ⟨hdone, hperm⟩

theorem floodTags_length : floodTags.length = 600002 := by
  unfold floodTags
  rw [List.length_map, List.length_range]

end VerifyFacts

/-- C4, the failing input: the file lists 600002 tags, no manifest can be
fetched, one worker. Under no schedule of `IntegrityCheckFromFile` are the tags
sent on the broken-tags channel the failing tags: the channel holds 300000, the
function returns it only after its feeding loop, and that loop never
finishes. -/
theorem integrityCheckFromFile_flood_blocks :
    ¬ ∃ sched broken,
      IntegrityCheckFromFile floodPlatform 1 "flood.yaml" sched = .ok broken ∧
      List.Perm broken.hist
        (floodTags.filter fun tag =>
          (floodClient.GetManifest tag.ProjectName tag.RepositoryName tag.Name).isSome) := by
  rintro ⟨sched, broken, hrun, hperm⟩
  have hrun' : exec verifyFileCfg (verifyBody floodClient) (Pool.start floodTags 1) sched
      = broken := by
    have hclient : NewIngressClient floodPlatform = .ok floodClient := rfl
    have hfile : floodPlatform.readFile "flood.yaml" = .ok ⟨floodTags, 600002⟩ := by
      simp [floodPlatform]
    have hsp := (spawn_pos (β := Tag) (γ := Unit) floodTags (show (1 : Int) ≤ 1 by decide)).1
    unfold IntegrityCheckFromFile at hrun
    simp only [hclient, parseIntegrityCheckFile, hfile, hsp] at hrun
    exact Except.ok.inj hrun
  have hflood := gated_flood verifyFileCfg (verifyBody floodClient) floodTags 1 rfl
    (fun x => ⟨x, rfl⟩)
    (by rw [floodTags_length]; decide) sched
  rw [hrun'] at hflood
  have hall : (floodTags.filter fun tag =>
      (floodClient.GetManifest tag.ProjectName tag.RepositoryName tag.Name).isSome)
      = floodTags := List.filter_eq_self.2 (fun _ _ => rfl)
  have hl := hperm.length_eq
  rw [hall, floodTags_length] at hl
  simp only [Pool.hist, hflood.2.1, List.nil_append] at hl
  have := hflood.2.2
  simp only [verifyFileCfg, maxHarborTagsChannelLength] at this
  omega

section ImageStageFacts

theorem imagesBody_sends (client : Client) (projectName : String) :
    sends (imagesBody client projectName) =
      (client.ListImages projectName).1.filterMap (normalize projectName) := by
  unfold imagesBody
  induction (client.ListImages projectName).1 with
  | nil => rfl
  | cons a l ih =>
    simp only [List.map_cons, List.filterMap_cons, sends] at ih ⊢
    cases normalize projectName a <;> simp [Action.sent, ih]

theorem imagesBody_safe (client : Client) (names : List String)
    (hnames : ∀ name ∈ names, ∀ image ∈ (client.ListImages name).1, '/' ∈ image.Name.data) :
    ∀ x ∈ names, Action.panic ∉ imagesBody client x := by
  intro x hx hmem
  unfold imagesBody at hmem
  rw [List.mem_map] at hmem
  obtain ⟨image, himage, heq⟩ := hmem
  rcases split_first image.Name.data '/' with h | ⟨a, b, hd, ha⟩
  · exact h (hnames x hx image himage)
  · rw [normalize_slash x hd ha] at heq
    cases heq

theorem imagesCfg_fits (client : Client) (projects : List Project) (n : Nat) :
    (imagesCfg projects).Fits (imagesBody client) (projects.map (·.Name)) n := by
  refine ⟨?_, Or.inl ?_⟩
  · simp [imagesCfg]
  · simp [imagesCfg, maxHarborImagesChannelLength]

theorem normalize_project {projectName : String} {image image' : Image}
    (h : normalize projectName image = some image') : image'.ProjectName = projectName := by
  unfold normalize at h
  cases hs : (SplitN image.Name '/' 2)[1]? with
  | none => simp [hs] at h
  | some name =>
    simp only [hs, Option.some.injEq] at h
    rw [← h]

/-- The image stage over the project names `names`, none of whose images lacks
a `/`. -/
theorem images_stage (cfg : Cfg) (client : Client) (names : List String) {concurrency : Int}
    (hfit : cfg.Fits (imagesBody client) names concurrency.toNat)
    (hnames : ∀ name ∈ names, ∀ image ∈ (client.ListImages name).1, '/' ∈ image.Name.data)
    (hn : 1 ≤ concurrency) (sched : List Nat)
    (hlen : fuel (imagesBody client) (spawn names concurrency : Pool String Image Unit)
      ≤ sched.length) :
    (exec cfg (imagesBody client) (spawn names concurrency) sched).complete ∧
      List.Perm (exec cfg (imagesBody client) (spawn names concurrency) sched).recvd
        (names.flatMap fun name => (client.ListImages name).1.filterMap (normalize name)) := by
  obtain ⟨hsp, hpos⟩ := spawn_pos (β := Image) (γ := Unit) names hn
  rw [hsp] at hlen ⊢
  obtain ⟨hdone, hperm, _, _⟩ := pool_run cfg (imagesBody client) hpos hfit
    (imagesBody_safe client names hnames) sched hlen
  simp only [imagesBody_sends] at hperm
  exact ⟨hdone, hperm⟩

/-- The function `ListImages` on a registry none of whose listed image names
lacks a `/`. -/
theorem listImages_run (p : Platform) (client : Client) (concurrency : Int)
    (projects : List Project) (sched : List Nat)
    (hclient : NewIngressClient p = .ok client)
    (hprojects : client.ListProjects = (projects, none))
    (hnames : ∀ project ∈ projects, ∀ image ∈ (client.ListImages project.Name).1,
      '/' ∈ image.Name.data)
    (hn : 1 ≤ concurrency)
    (hlen : fuel (imagesBody client)
      (spawn (projects.map (·.Name)) concurrency : Pool String Image Unit) ≤ sched.length) :
    ∃ images, ListImages p concurrency sched = .ok images ∧ images.complete ∧
      List.Perm images.recvd
        (projects.flatMap fun project =>
          (client.ListImages project.Name).1.filterMap (normalize project.Name)) := by
  have hnames' : ∀ name ∈ projects.map (·.Name), ∀ image ∈ (client.ListImages name).1,
      '/' ∈ image.Name.data := by
    intro name hname
    rw [List.mem_map] at hname
    obtain ⟨project, hproject, rfl⟩ := hname
    exact hnames project hproject
  obtain ⟨hdone, hperm⟩ := images_stage (imagesCfg projects) client (projects.map (·.Name))
    (imagesCfg_fits client projects _) hnames' hn sched hlen
  rw [List.flatMap_map] at hperm
  refine ⟨_, ?_, hdone, hperm⟩
  unfold ListImages
  simp only [hclient, hprojects]

end ImageStageFacts

/-- C8, refuted: the listing of `p1` returns an error together with the list
`[p1/img]`; with one worker, after three steps `ListImages` has sent the image
`img` of `p1` on its channel. -/
theorem listImages_error_with_list_emits :
    (partialClient.ListImages "p1").2.isSome = true ∧
      ∃ images, ListImages partialPlatform 1 [0, 1, 1] = .ok images ∧
        images.hist = [⟨"p1", "img", "pulls=7"⟩] := by
  refine ⟨rfl, _, rfl, ?_⟩
  decide

/-- C8, amended. With a registry client, a project listing that succeeds, no
listed image name without `/`, and at least one worker: a listing call
contributes the items of the list it returns, whether or not it also returns
an error, and no call stops the others. On every schedule long enough
`ListImages` closes its channel after delivering, up to order, the normalised
images of every project's list, and none for a project whose list is empty;
over every such completed run of `ListImages`, on every schedule long enough
`ListImagesWithTags` closes its channel after delivering, up to order, the tags
of every delivered image's artifact list, and none for an image whose list is
empty. -/
theorem listing_error_contributes (p : Platform) (client : Client) (concurrency : Int)
    (projects : List Project) (hclient : NewIngressClient p = .ok client)
    (hprojects : client.ListProjects = (projects, none))
    (hnames : ∀ project ∈ projects, ∀ image ∈ (client.ListImages project.Name).1,
      '/' ∈ image.Name.data)
    (hn : 1 ≤ concurrency) :
    (∀ sched : List Nat,
      fuel (imagesBody client)
        (spawn (projects.map (·.Name)) concurrency : Pool String Image Unit) ≤ sched.length →
      ∃ images, ListImages p concurrency sched = .ok images ∧ images.complete ∧
        List.Perm images.recvd
          (projects.flatMap fun project =>
            (client.ListImages project.Name).1.filterMap (normalize project.Name)) ∧
        ∀ project ∈ projects, (client.ListImages project.Name).1 = [] →
          ∀ image ∈ images.recvd, image.ProjectName ≠ project.Name) ∧
    (∀ (sched₁ sched₂ : List Nat) (images : Pool String Image Unit),
      ListImages p concurrency sched₁ = .ok images → images.complete →
      fuel (tagsBody client) (spawn images.recvd concurrency : Pool Image Tag Unit)
        ≤ sched₂.length →
      ∃ tags, ListImagesWithTags p concurrency sched₁ sched₂ = .ok tags ∧ tags.complete ∧
        List.Perm tags.recvd (images.recvd.flatMap (imageTags client)) ∧
        ∀ image ∈ images.recvd, (client.ListArtifacts image.ProjectName image.Name).1 = [] →
          ∀ tag ∈ tags.recvd,
            ¬ (tag.ProjectName = image.ProjectName ∧ tag.RepositoryName = image.Name)) := by
  constructor
  · intro sched hlen
    obtain ⟨images, himages, hdone, hperm⟩ := listImages_run p client concurrency projects sched
      hclient hprojects hnames hn hlen
    refine ⟨images, himages, hdone, hperm, ?_⟩
    intro project _ hempty image himage heq
    have hmem := (List.Perm.mem_iff hperm).1 himage
    rw [List.mem_flatMap] at hmem
    obtain ⟨project', _, hmem'⟩ := hmem
    rw [List.mem_filterMap] at hmem'
    obtain ⟨raw, hraw, hnorm⟩ := hmem'
    have hp := normalize_project hnorm
    rw [heq] at hp
    rw [← hp, hempty] at hraw
    cases hraw
  · intro sched₁ sched₂ images himages hdone hlen
    obtain ⟨tags, htags, hcomplete, hperm, _⟩ := listImagesWithTags_run p client concurrency
      sched₁ sched₂ images hclient himages hdone hn hlen
    refine ⟨tags, htags, hcomplete, hperm, ?_⟩
    intro image _ hempty tag htag heq
    have hmem := (List.Perm.mem_iff hperm).1 htag
    rw [List.mem_flatMap] at hmem
    obtain ⟨image', _, hmem'⟩ := hmem
    unfold imageTags at hmem'
    rw [List.mem_flatMap] at hmem'
    obtain ⟨artifact, hartifact, hin⟩ := hmem'
    have htp : tag.ProjectName = image'.ProjectName ∧ tag.RepositoryName = image'.Name := by
      simp only [artifactTags, List.mem_cons, List.mem_map] at hin
      rcases hin with rfl | ⟨t, _, rfl⟩ <;> exact ⟨rfl, rfl⟩
    rw [← htp.1, ← htp.2, heq.1, heq.2, hempty] at hartifact
    cases hartifact

/-- C8, amended, on the registry whose listing of `p1` returns an error together
with `[p1/img]`, with two workers: `ListImages` closes its channel after
delivering the image, and over that run `ListImagesWithTags` closes its channel
after delivering the two tags of the image. -/
theorem listing_error_contributes_witness :
    (∃ images, ListImages partialPlatform 2 (List.replicate 20 0) = .ok images ∧
      images.complete ∧ List.Perm images.recvd [⟨"p1", "img", "pulls=7"⟩]) ∧
    ∃ tags, ListImagesWithTags partialPlatform 2 (List.replicate 20 0) (List.replicate 20 0)
        = .ok tags ∧ tags.complete ∧
      List.Perm tags.recvd
        [⟨"sha256:abc", "p1", "img", "sha256:abc"⟩, ⟨"latest", "p1", "img", "sha256:abc"⟩] := by
  have h := listing_error_contributes partialPlatform partialClient 2 [⟨"p1"⟩] rfl rfl
    (by decide) (by decide)
  obtain ⟨images, h1, h2, h3, _⟩ := h.1 (List.replicate 20 0) (by decide)
  refine ⟨⟨images, h1, h2, h3⟩, ?_⟩
  have e : exec (imagesCfg [⟨"p1"⟩]) (imagesBody partialClient) (spawn ["p1"] 2)
      (List.replicate 20 0) = images := Except.ok.inj h1
  have er : images.recvd = [⟨"p1", "img", "pulls=7"⟩] := by
    rw [← e]
    decide
  obtain ⟨tags, t1, t2, t3, _⟩ := h.2 (List.replicate 20 0) (List.replicate 20 0) images h1 h2
    (by rw [er]; decide)
  rw [er] at t3
  exact ⟨tags, t1, t2, t3⟩

/-- C7, the failing input: the registry lists for `p1` an image named `img`. With
one worker `ListImages` has panicked after three steps, and under no schedule
does it send anything on its channel. -/
theorem listImages_bare_name_panics :
    (∃ images, ListImages barePlatform 1 [0, 1, 1] = .ok images ∧ images.crashed = true) ∧
      ¬ ∃ sched images, ListImages barePlatform 1 sched = .ok images ∧ images.hist ≠ [] := by
  refine ⟨⟨_, rfl, by decide⟩, ?_⟩
  rintro ⟨sched, images, hrun, hne⟩
  have hrun' : exec (imagesCfg [⟨"p1"⟩]) (imagesBody bareClient) (Pool.start ["p1"] 1) sched
      = images := Except.ok.inj hrun
  have hacc := (exec_sound (imagesCfg [⟨"p1"⟩]) (imagesBody bareClient) ["p1"] 1 sched).2.1
  rw [hrun'] at hacc
  cases hh : images.hist with
  | nil => exact hne hh
  | cons y l =>
    have hmem : Action.send y ∈ (["p1"].flatMap (imagesBody bareClient)) := by
      refine (List.Perm.mem_iff hacc).1 ?_
      simp [hh]
    have hbody : ["p1"].flatMap (imagesBody bareClient) = [Action.panic] := by decide
    rw [hbody] at hmem
    simp at hmem

section CloseFacts

variable {α β γ : Type}

theorem done_of_liveCount_zero {l : List (Worker β γ)} (h : liveCount l = 0) :
    ∀ w ∈ l, w = .done := by
  induction l with
  | nil => simp
  | cons a l ih =>
    simp only [liveCount, List.map_cons, List.sum_cons] at h ih
    intro w hw
    rcases List.mem_cons.1 hw with rfl | hw
    · cases w with
      | done => rfl
      | recv => simp [Worker.live] at h
      | busy t => simp [Worker.live] at h
    · exact ih (by omega) w hw

/-- A crashed pool has a worker inside a body: the one that panicked. -/
theorem exec_crash_busy (cfg : Cfg) (work : α → List (Action β γ)) (src : List α) (n : Nat)
    (sched : List Nat) :
    (exec cfg work (Pool.start src n) sched).crashed = true →
      ∃ t, Worker.busy t ∈ (exec cfg work (Pool.start src n) sched).workers := by
  refine exec_induction (fun s => s.crashed = true → ∃ t, Worker.busy t ∈ s.workers) ?_ _ ?_ sched
  · intro s s' _ hs
    cases hs with
    | sendClosed i y t hc hw hcl => exact fun _ => ⟨_, mem_of_getElem? hw⟩
    | panic i t hc hw => exact fun _ => ⟨_, mem_of_getElem? hw⟩
    | _ =>
      intro h
      simp_all
  · intro h
    simp [Pool.start] at h

end CloseFacts

/-- C9, the failing input: the file lists 600002 tags, no manifest can be
fetched, one worker. Under no schedule of `IntegrityCheckFromFile` is the
broken-tags channel ever closed: the worker blocks on the full channel, which
nobody holds yet, and the feeding loop blocks behind it. -/
theorem integrityCheckFromFile_flood_never_closes :
    ¬ ∃ sched broken,
      IntegrityCheckFromFile floodPlatform 1 "flood.yaml" sched = .ok broken ∧
      0 < broken.closes := by
  rintro ⟨sched, broken, hrun, hcl⟩
  have hrun' : exec verifyFileCfg (verifyBody floodClient) (Pool.start floodTags 1) sched
      = broken := by
    have hclient : NewIngressClient floodPlatform = .ok floodClient := rfl
    have hfile : floodPlatform.readFile "flood.yaml" = .ok ⟨floodTags, 600002⟩ := by
      simp [floodPlatform]
    have hsp := (spawn_pos (β := Tag) (γ := Unit) floodTags (show (1 : Int) ≤ 1 by decide)).1
    unfold IntegrityCheckFromFile at hrun
    simp only [hclient, parseIntegrityCheckFile, hfile, hsp] at hrun
    exact Except.ok.inj hrun
  have hflood := gated_flood verifyFileCfg (verifyBody floodClient) floodTags 1 rfl
    (fun x => ⟨x, rfl⟩)
    (by rw [floodTags_length]; decide) sched
  obtain ⟨hcoh, _, _, hlen⟩ := exec_sound verifyFileCfg (verifyBody floodClient) floodTags 1 sched
  rw [hrun'] at hflood hcoh hlen
  have hall := done_of_liveCount_zero (hcoh.closed_live hcl)
  have hd : Worker.done ∈ broken.workers := by
    have hmem : broken.workers[0] ∈ broken.workers := List.getElem_mem _
    rw [hall _ hmem] at hmem
    exact hmem
  have := (hcoh.done_in hd).1
  rw [hflood.1] at this
  cases this

section NormalizedFacts

theorem dropWhile_first {a b : List Char} (ha : '/' ∉ a) :
    (a ++ '/' :: b).dropWhile (· ≠ '/') = '/' :: b := by
  induction a with
  | nil => simp [List.dropWhile]
  | cons c cs ih =>
    have hc : c ≠ '/' := fun e => ha (by simp [e])
    have hcs : '/' ∉ cs := fun e => ha (List.mem_cons_of_mem _ e)
    have := ih hcs
    simp only [List.cons_append, List.dropWhile_cons, hc, ne_eq, not_false_eq_true,
      decide_True, if_true]
    exact this

theorem normalize_afterSlash (projectName : String) {image : Image}
    (h : '/' ∈ image.Name.data) :
    normalize projectName image =
      some { image with ProjectName := projectName, Name := afterSlash image.Name } := by
  rcases split_first image.Name.data '/' with hno | ⟨a, b, hd, ha⟩
  · exact absurd h hno
  · rw [normalize_slash projectName hd ha]
    unfold afterSlash
    rw [hd, dropWhile_first ha]
    rfl

theorem filterMap_normalize (projectName : String) (l : List Image)
    (h : ∀ image ∈ l, '/' ∈ image.Name.data) :
    l.filterMap (normalize projectName) =
      l.map fun image =>
        { image with ProjectName := projectName, Name := afterSlash image.Name } := by
  induction l with
  | nil => rfl
  | cons a l ih =>
    rw [List.filterMap_cons, normalize_afterSlash projectName (h a (List.mem_cons_self _ _)),
      ih (fun image hi => h image (List.mem_cons_of_mem _ hi))]
    rfl

theorem images_enumerated (client : Client) (projects : List Project)
    (hnames : ∀ project ∈ projects, ∀ image ∈ (client.ListImages project.Name).1,
      '/' ∈ image.Name.data) :
    (projects.flatMap fun project =>
      (client.ListImages project.Name).1.filterMap (normalize project.Name)) =
      enumerated client projects := by
  unfold enumerated
  induction projects with
  | nil => rfl
  | cons a l ih =>
    rw [List.flatMap_cons, List.flatMap_cons,
      filterMap_normalize _ _ (hnames a (List.mem_cons_self _ _)),
      ih (fun q hq => hnames q (List.mem_cons_of_mem _ hq))]

/-- The functions `ListImages` and `ListImagesWithTags` on a registry none of whose
listed image names lacks a `/`, from the registry to the tags. -/
theorem crawl_run (p : Platform) (client : Client) (concurrency : Int)
    (projects : List Project) (sched₁ sched₂ : List Nat)
    (hclient : NewIngressClient p = .ok client)
    (hprojects : client.ListProjects = (projects, none))
    (hnames : ∀ project ∈ projects, ∀ image ∈ (client.ListImages project.Name).1,
      '/' ∈ image.Name.data)
    (hn : 1 ≤ concurrency)
    (hlen₁ : fuel (imagesBody client)
      (spawn (projects.map (·.Name)) concurrency : Pool String Image Unit) ≤ sched₁.length)
    (hlen₂ : fuel (tagsBody client)
      (spawn (enumerated client projects) concurrency : Pool Image Tag Unit) ≤ sched₂.length) :
    ∃ tags, ListImagesWithTags p concurrency sched₁ sched₂ = .ok tags ∧ tags.complete ∧
      List.Perm tags.recvd ((enumerated client projects).flatMap (imageTags client)) ∧
      ∀ image ∈ enumerated client projects, (imageTags client image).Sublist tags.recvd := by
  obtain ⟨images, himages, hdone, hperm⟩ := listImages_run p client concurrency projects sched₁
    hclient hprojects hnames hn hlen₁
  rw [images_enumerated client projects hnames] at hperm
  rw [← fuel_spawn_perm (tagsBody client) hperm concurrency] at hlen₂
  obtain ⟨tags, htags, hcomplete, hperm', hsub⟩ := listImagesWithTags_run p client concurrency
    sched₁ sched₂ images hclient himages hdone hn hlen₂
  exact ⟨tags, htags, hcomplete, hperm'.trans (hperm.flatMap_right _),
    fun image himage => hsub image (hperm.mem_iff.2 himage)⟩

end NormalizedFacts

/-- C3. `ListImagesWithTags` with a registry client, a project listing that
succeeds, no listed image name without `/` (a name without one is the panic of
`ListImages`) and at least one worker: on all schedules long enough, the one
of `ListImages` and its own, the tag channel is closed and read to the end,
and the tags received are, up to order across images, exactly these: for each
enumerated image `(P, R)` (an image the registry lists for a project `P`, `R`
its name after the first `/`) and each artifact `ListArtifacts(P, R)` returns,
`{Name: D, ProjectName: P, RepositoryName: R, Digest: D}` followed by one
`{Name: t, ProjectName: P, RepositoryName: R, Digest: D}` per tag `t` of the
artifact, in artifact order (the tags of an image form a subsequence of the
output). An artifact with `n` tags yields `n + 1` tags, all with its digest. -/
theorem listImagesWithTags_emits (p : Platform) (client : Client) (concurrency : Int)
    (projects : List Project) (sched₁ sched₂ : List Nat)
    (hclient : NewIngressClient p = .ok client)
    (hprojects : client.ListProjects = (projects, none))
    (hnames : ∀ project ∈ projects, ∀ image ∈ (client.ListImages project.Name).1,
      '/' ∈ image.Name.data)
    (hn : 1 ≤ concurrency)
    (hlen₁ : fuel (imagesBody client)
      (spawn (projects.map (·.Name)) concurrency : Pool String Image Unit) ≤ sched₁.length)
    (hlen₂ : fuel (tagsBody client)
      (spawn (enumerated client projects) concurrency : Pool Image Tag Unit) ≤ sched₂.length) :
    ∃ tags, ListImagesWithTags p concurrency sched₁ sched₂ = .ok tags ∧ tags.complete ∧
      List.Perm tags.recvd
        ((enumerated client projects).flatMap fun image =>
          (client.ListArtifacts image.ProjectName image.Name).1.flatMap fun artifact =>
            Tag.mk artifact.Digest image.ProjectName image.Name artifact.Digest ::
              artifact.Tags.map fun t =>
                Tag.mk t.Name image.ProjectName image.Name artifact.Digest) ∧
      (∀ image ∈ enumerated client projects,
        ((client.ListArtifacts image.ProjectName image.Name).1.flatMap fun artifact =>
            Tag.mk artifact.Digest image.ProjectName image.Name artifact.Digest ::
              artifact.Tags.map fun t =>
                Tag.mk t.Name image.ProjectName image.Name artifact.Digest).Sublist
          tags.recvd) ∧
      (∀ (image : Image) (artifact : Artifact),
        (artifactTags image artifact).length = artifact.Tags.length + 1 ∧
          ∀ tag ∈ artifactTags image artifact, tag.Digest = artifact.Digest) := by
  obtain ⟨tags, htags, hcomplete, hperm, hsub⟩ := crawl_run p client concurrency projects
    sched₁ sched₂ hclient hprojects hnames hn hlen₁ hlen₂
  refine ⟨tags, htags, hcomplete, hperm, hsub, ?_⟩
  intro image artifact
  refine ⟨by simp [artifactTags], ?_⟩
  intro tag htag
  simp only [artifactTags, List.mem_cons, List.mem_map] at htag
  rcases htag with rfl | ⟨t, _, rfl⟩ <;> rfl

/-- C3 on the scenario registry with two workers: project `p1` holds the image
`p1/img`, whose one artifact `sha256:abc` is tagged `latest`; `ListImagesWithTags`
closes its channel after delivering the digest tag and the tag `latest` of
`(p1, img)`, and nothing else. -/
theorem listImagesWithTags_emits_witness :
    ∃ tags, ListImagesWithTags scenarioPlatform 2 (List.replicate 20 0) (List.replicate 20 0)
        = .ok tags ∧ tags.complete ∧
      List.Perm tags.recvd
        [⟨"sha256:abc", "p1", "img", "sha256:abc"⟩, ⟨"latest", "p1", "img", "sha256:abc"⟩] := by
  obtain ⟨tags, h1, h2, h3, _⟩ := listImagesWithTags_emits scenarioPlatform scenarioClient 2
    [⟨"p1"⟩] (List.replicate 20 0) (List.replicate 20 0) rfl rfl (by decide) (by decide)
    (by decide) (by decide)
  refine ⟨tags, h1, h2, ?_⟩
  have e : ((enumerated scenarioClient [⟨"p1"⟩]).flatMap fun image =>
      (scenarioClient.ListArtifacts image.ProjectName image.Name).1.flatMap fun artifact =>
        Tag.mk artifact.Digest image.ProjectName image.Name artifact.Digest ::
          artifact.Tags.map fun t =>
            Tag.mk t.Name image.ProjectName image.Name artifact.Digest) =
      [⟨"sha256:abc", "p1", "img", "sha256:abc"⟩, ⟨"latest", "p1", "img", "sha256:abc"⟩] := by
    decide
  rw [e] at h3
  exact h3

/-- `ListImages` on a registry whose listed image names all contain a `/`, with
a registry client, a project listing that succeeds and at least one worker: on
every schedule long enough the image channel is closed and read to the end, and
the images received are, up to order, one per image listed for each project
`P`, with `ProjectName` set to `P`, `Name` cut down to the text after its
first `/`, and the other fields as the registry supplied them. -/
theorem listImages_normalized (p : Platform) (client : Client) (concurrency : Int)
    (projects : List Project) (sched : List Nat)
    (hclient : NewIngressClient p = .ok client)
    (hprojects : client.ListProjects = (projects, none))
    (hnames : ∀ project ∈ projects, ∀ image ∈ (client.ListImages project.Name).1,
      '/' ∈ image.Name.data)
    (hn : 1 ≤ concurrency)
    (hlen : fuel (imagesBody client)
      (spawn (projects.map (·.Name)) concurrency : Pool String Image Unit) ≤ sched.length) :
    ∃ images, ListImages p concurrency sched = .ok images ∧ images.complete ∧
      List.Perm images.recvd
        (projects.flatMap fun project =>
          (client.ListImages project.Name).1.map fun image =>
            { image with ProjectName := project.Name, Name := afterSlash image.Name }) := by
  obtain ⟨images, himages, hdone, hperm⟩ := listImages_run p client concurrency projects sched
    hclient hprojects hnames hn hlen
  rw [images_enumerated client projects hnames] at hperm
  exact ⟨images, himages, hdone, hperm⟩

/-- The scenario registry, two workers: `ListImages` delivers the image `img` of
`p1`. -/
theorem listImages_normalized_witness :
    ∃ images, ListImages scenarioPlatform 2 (List.replicate 20 0) = .ok images ∧
      images.complete ∧ List.Perm images.recvd [⟨"p1", "img", "pulls=7"⟩] :=
  listImages_normalized scenarioPlatform scenarioClient 2 [⟨"p1"⟩] (List.replicate 20 0) rfl rfl
    (by decide) (by decide) (by decide)

/-- `ListImages` on a registry that lists an image name without `/`, with a
registry client, a project listing that succeeds and at least one worker:
every schedule long enough ends in the panic of a worker. -/
theorem listImages_panics (p : Platform) (client : Client) (concurrency : Int)
    (projects : List Project) (sched : List Nat)
    (hclient : NewIngressClient p = .ok client)
    (hprojects : client.ListProjects = (projects, none))
    (hbare : ∃ project ∈ projects, ∃ image ∈ (client.ListImages project.Name).1,
      '/' ∉ image.Name.data)
    (hn : 1 ≤ concurrency)
    (hlen : fuel (imagesBody client)
      (spawn (projects.map (·.Name)) concurrency : Pool String Image Unit) ≤ sched.length) :
    ∃ images, ListImages p concurrency sched = .ok images ∧ images.crashed = true := by
  obtain ⟨hsp, hpos⟩ := spawn_pos (β := Image) (γ := Unit) (projects.map (·.Name)) hn
  rw [hsp] at hlen
  obtain ⟨project, hproject, image, himage, hno⟩ := hbare
  have hbad : ∃ x ∈ projects.map (·.Name), Action.panic ∈ imagesBody client x := by
    refine ⟨project.Name, List.mem_map.2 ⟨project, hproject, rfl⟩, ?_⟩
    unfold imagesBody
    rw [List.mem_map]
    exact ⟨image, himage, by rw [normalize_no_slash _ hno]⟩
  have hcrash := pool_crash (imagesCfg projects) (imagesBody client) hpos
    (imagesCfg_fits client projects _) hbad sched hlen
  refine ⟨_, ?_, hcrash⟩
  unfold ListImages
  simp only [hclient, hprojects, hsp]

/-- The registry that lists the image name `img` for `p1`, one worker: a panic. -/
theorem listImages_panics_witness :
    ∃ images, ListImages barePlatform 1 (List.replicate 20 0) = .ok images ∧
      images.crashed = true :=
  listImages_panics barePlatform bareClient 1 [⟨"p1"⟩] (List.replicate 20 0) rfl rfl
    ⟨⟨"p1"⟩, by decide, ⟨"", "img", "pulls=7"⟩, by decide, by decide⟩ (by decide) (by decide)

section OpenFacts

variable {α β γ : Type}

/-- A pool whose upstream has not closed its channel keeps its input open, its
workers never return, and its output is never closed. -/
theorem exec_open (cfg : Cfg) (work : α → List (Action β γ)) (s : Pool α β γ)
    (hmore : s.more = true) (hin : s.inClosed = false) (hcl : s.closes = 0) (hwg : 0 < s.wg)
    (hrd : s.readerDone = false) (sched : List Nat) :
    (exec cfg work s sched).closes = 0 ∧ (exec cfg work s sched).readerDone = false := by
  have key := @exec_induction _ _ _ cfg work
    (fun s => s.more = true ∧ s.inClosed = false ∧ s.closes = 0 ∧ 0 < s.wg ∧
      s.readerDone = false) ?_ s ⟨hmore, hin, hcl, hwg, hrd⟩ sched
  · exact ⟨key.2.2.1, key.2.2.2.2⟩
  · intro s s' ⟨h1, h2, h3, h4, h5⟩ hs
    cases hs with
    | closeIn hc hsrc hopen hmore => rw [h1] at hmore; cases hmore
    | leave i hc hw hinq hcl => rw [h2] at hcl; cases hcl
    | closeOut hc hopen hwg hsync => omega
    | readEnd hc hrd hgate hout hcl => omega
    | _ => exact ⟨h1, h2, h3, h4, h5⟩

theorem exec_crashed (cfg : Cfg) (work : α → List (Action β γ)) (s : Pool α β γ)
    (hc : s.crashed = true) (sched : List Nat) : exec cfg work s sched = s :=
  exec_stuck (crashed_stuck hc) sched

end OpenFacts

/-- The function `IntegrityCheck` from the registry to the broken tags, and the
function `IntegrityCheckFromFile` on a file its channels can hold. With a
registry client and at least one worker, on all schedules long enough the
broken-tags channel is closed and read to the end, and the tags received are,
up to order, the input tags whose `GetManifest(ProjectName, RepositoryName,
Name)` returns an error, each once and unchanged: in `IntegrityCheck` the input
is the tags of the enumerated images, for a project listing that succeeds and
no listed image name without `/`; in `IntegrityCheckFromFile` it is the tags of
a file that lists at most `2 * maxHarborTagsChannelLength + concurrency` of
them (what its two channels and its workers hold together). -/
theorem integrityCheck_broken (p : Platform) (client : Client) (concurrency : Int)
    (hclient : NewIngressClient p = .ok client) (hn : 1 ≤ concurrency) :
    (∀ (projects : List Project) (sched₁ sched₂ sched₃ : List Nat),
      client.ListProjects = (projects, none) →
      (∀ project ∈ projects, ∀ image ∈ (client.ListImages project.Name).1,
        '/' ∈ image.Name.data) →
      fuel (imagesBody client)
        (spawn (projects.map (·.Name)) concurrency : Pool String Image Unit) ≤ sched₁.length →
      fuel (tagsBody client)
        (spawn (enumerated client projects) concurrency : Pool Image Tag Unit) ≤ sched₂.length →
      fuel (verifyBody client)
        (spawn ((enumerated client projects).flatMap (imageTags client)) concurrency :
          Pool Tag Tag Unit) ≤ sched₃.length →
      ∃ broken, IntegrityCheck p concurrency sched₁ sched₂ sched₃ = .ok broken ∧
        broken.complete ∧
        List.Perm broken.recvd
          (((enumerated client projects).flatMap (imageTags client)).filter fun tag =>
            (client.GetManifest tag.ProjectName tag.RepositoryName tag.Name).isSome)) ∧
    (∀ (file : String) (f : IntegrityCheckFile) (sched : List Nat),
      p.readFile file = .ok f →
      f.Artifacts.length ≤ 2 * maxHarborTagsChannelLength + concurrency.toNat →
      fuel (verifyBody client) (spawn f.Artifacts concurrency : Pool Tag Tag Unit)
        ≤ sched.length →
      ∃ broken, IntegrityCheckFromFile p concurrency file sched = .ok broken ∧
        broken.complete ∧
        List.Perm broken.recvd (f.Artifacts.filter fun tag =>
          (client.GetManifest tag.ProjectName tag.RepositoryName tag.Name).isSome)) := by
  constructor
  · intro projects sched₁ sched₂ sched₃ hprojects hnames hlen₁ hlen₂ hlen₃
    obtain ⟨tags, htags, hcomplete, hperm, _⟩ := crawl_run p client concurrency projects
      sched₁ sched₂ hclient hprojects hnames hn hlen₁ hlen₂
    rw [← fuel_spawn_perm (verifyBody client) hperm concurrency] at hlen₃
    obtain ⟨hdone, hperm'⟩ := verify_stage verifyCfg client tags.recvd
      (verifyCfg_fits client _ _) hn sched₃ hlen₃
    refine ⟨_, ?_, hdone, hperm'.trans (hperm.filter _)⟩
    unfold IntegrityCheck
    simp only [hclient, htags, downstream_complete hcomplete]
  · intro file f sched hfile hfits hlen
    obtain ⟨hdone, hperm⟩ := verify_stage verifyFileCfg client f.Artifacts
      (verifyFileCfg_fits client hfits) hn sched hlen
    refine ⟨_, ?_, hdone, hperm⟩
    unfold IntegrityCheckFromFile
    simp only [hclient, parseIntegrityCheckFile, hfile]

/-- The scenario registry with two workers: of the two tags of `p1/img` only
`latest` has no manifest, and it is the one tag `IntegrityCheck` delivers; of
the five tags of the scenario file only `latest` has none, and it is the one
tag `IntegrityCheckFromFile` delivers. -/
theorem integrityCheck_broken_witness :
    (∃ broken, IntegrityCheck scenarioPlatform 2 (List.replicate 20 0) (List.replicate 20 0)
        (List.replicate 20 0) = .ok broken ∧ broken.complete ∧
      List.Perm broken.recvd [⟨"latest", "p1", "img", "sha256:abc"⟩]) ∧
    ∃ broken, IntegrityCheckFromFile scenarioPlatform 2 "broken.yaml" (List.replicate 40 0)
        = .ok broken ∧ broken.complete ∧
      List.Perm broken.recvd [⟨"latest", "p1", "img", "sha256:e"⟩] :=
  ⟨(integrityCheck_broken scenarioPlatform scenarioClient 2 rfl (by decide)).1 [⟨"p1"⟩]
      (List.replicate 20 0) (List.replicate 20 0) (List.replicate 20 0) rfl (by decide)
      (by decide) (by decide) (by decide),
    (integrityCheck_broken scenarioPlatform scenarioClient 2 rfl (by decide)).2 "broken.yaml"
      ⟨scenarioTags, 5⟩ (List.replicate 40 0) rfl (by decide) (by decide)⟩

/-- While `ListImages` has not closed its channel, or the channel has not been
read to its end, `ListImagesWithTags` does not close its own: with at least one
worker, over every run of `ListImages` that is not complete and under every
schedule, the tag channel is open. -/
theorem listImagesWithTags_waits (p : Platform) (client : Client) (concurrency : Int)
    (sched₁ sched₂ : List Nat) (images : Pool String Image Unit)
    (hclient : NewIngressClient p = .ok client)
    (himages : ListImages p concurrency sched₁ = .ok images)
    (hopen : images.readerDone = false) (hn : 1 ≤ concurrency) :
    ∃ tags, ListImagesWithTags p concurrency sched₁ sched₂ = .ok tags ∧ tags.closes = 0 ∧
      tags.readerDone = false ∧ ¬ tags.complete := by
  have hrun : ListImagesWithTags p concurrency sched₁ sched₂ =
      .ok (exec tagsCfg (tagsBody client) (downstream images concurrency) sched₂) := by
    unfold ListImagesWithTags
    simp only [hclient, himages]
  have key : (exec tagsCfg (tagsBody client) (downstream images concurrency) sched₂).closes = 0 ∧
      (exec tagsCfg (tagsBody client) (downstream images concurrency) sched₂).readerDone
        = false := by
    cases hc : images.crashed with
    | true =>
      have hd : (downstream images concurrency : Pool Image Tag Unit) =
          { Pool.start images.recvd 0 with crashed := true } := by
        unfold downstream
        rw [hc]
        rfl
      rw [hd, exec_crashed _ _ _ rfl]
      exact ⟨rfl, rfl⟩
    | false =>
      obtain ⟨hsp, hpos⟩ := spawn_pos (β := Tag) (γ := Unit) images.recvd hn
      have hd : (downstream images concurrency : Pool Image Tag Unit) =
          { Pool.start images.recvd concurrency.toNat with more := true } := by
        unfold downstream
        rw [hc, hsp, hopen]
        rfl
      rw [hd]
      exact exec_open _ _ _ rfl rfl rfl (by simp only [Pool.start]; omega) rfl sched₂
  refine ⟨_, hrun, key.1, key.2, ?_⟩
  intro hcomplete
  have := hcomplete.2.2.2.2.2.2.2.2
  rw [key.2] at this
  cases this

/-- The scenario registry with two workers, `ListImages` just started: its
channel is open, and under a schedule of 20 steps `ListImagesWithTags` has not
closed the tag channel. -/
theorem listImagesWithTags_waits_witness :
    ∃ tags, ListImagesWithTags scenarioPlatform 2 [] (List.replicate 20 0) = .ok tags ∧
      tags.closes = 0 ∧ tags.readerDone = false ∧ ¬ tags.complete :=
  listImagesWithTags_waits scenarioPlatform scenarioClient 2 [] (List.replicate 20 0)
    (exec (imagesCfg [⟨"p1"⟩]) (imagesBody scenarioClient) (spawn ["p1"] 2) []) rfl rfl rfl
    (by decide)
/-- A pool of `N ≥ 1` workers fed by a loop over a list that closes the input
after it (the pools of `ListImages`, `IntegrityCheckFromFile` and `BulkDelete`;
those of `ListImagesWithTags` and `IntegrityCheck` once the stage upstream is
complete), under every schedule: the output channel is closed at most once;
when it is closed every worker has returned, so no worker is at a send once it
is closed; once the reader has drained the closed channel the pool is complete
(every worker has returned, the feeding loop has ended, nothing is left in
either channel). On a schedule long enough the channel has been closed once all
workers have returned; it is closed exactly once, and the pool is complete,
when no body panics and the channels fit the input: an output that is sent on
has room, and a pool that hands out its output only after feeding its input
can hold that input in its input channel or, its bodies being at most one
operation, in its two channels and its workers' hands together. -/
theorem pool_closes_once {α β γ : Type} (cfg : Cfg) (work : α → List (Action β γ))
    (src : List α) (n : Nat) (sched : List Nat) (hn : 1 ≤ n) :
    (exec cfg work (Pool.start src n) sched).closes ≤ 1 ∧
    (0 < (exec cfg work (Pool.start src n) sched).closes →
      ∀ w ∈ (exec cfg work (Pool.start src n) sched).workers, w = .done) ∧
    (∀ (i : Nat) (y : β) (t : List (Action β γ)),
      (exec cfg work (Pool.start src n) sched).workers[i]? = some (.busy (.send y :: t)) →
      (exec cfg work (Pool.start src n) sched).closes = 0) ∧
    ((exec cfg work (Pool.start src n) sched).readerDone = true →
      (exec cfg work (Pool.start src n) sched).complete) ∧
    (fuel work (Pool.start src n : Pool α β γ) ≤ sched.length →
      ((∀ w ∈ (exec cfg work (Pool.start src n) sched).workers, w = .done) →
        (exec cfg work (Pool.start src n) sched).closes = 1) ∧
      (cfg.Fits work src n → (∀ x ∈ src, Action.panic ∉ work x) →
        (exec cfg work (Pool.start src n) sched).closes = 1 ∧
          (exec cfg work (Pool.start src n) sched).complete)) := by
  have hrun : fuel work (Pool.start src n : Pool α β γ) ≤ sched.length →
      cfg.Fits work src n → (∀ x ∈ src, Action.panic ∉ work x) →
      (exec cfg work (Pool.start src n) sched).complete :=
    fun hfuel hfit hsafe => (pool_run cfg work (by omega) hfit hsafe sched hfuel).1
  obtain ⟨hcoh, _, _, hlen⟩ := exec_sound cfg work src n sched
  have hcrash := exec_crash_busy cfg work src n sched
  have hstuck := exec_stuck_of_fuel cfg work (Pool.start src n) sched
  generalize exec cfg work (Pool.start src n) sched = s at hcoh hlen hcrash hstuck hrun
  have hw₀ : ∃ w, s.workers[0]? = some w :=
    ⟨s.workers[0], List.getElem?_eq_getElem (by omega)⟩
  have hnocrash : (∀ w ∈ s.workers, w = Worker.done) → s.crashed = false := by
    intro hall
    cases hc : s.crashed with
    | false => rfl
    | true =>
      obtain ⟨t, ht⟩ := hcrash hc
      cases hall _ ht
  refine ⟨hcoh.closes_le, fun hcl => done_of_liveCount_zero (hcoh.closed_live hcl), ?_, ?_, ?_⟩
  · intro i y t hw
    by_contra hne
    have h1 := hcoh.closed_live (by omega)
    have h2 := live_le_liveCount hw
    rw [live_busy] at h2
    omega
  · intro hrd
    obtain ⟨hcl, hout⟩ := hcoh.reader hrd
    have hall := done_of_liveCount_zero (hcoh.closed_live hcl)
    obtain ⟨w, hw⟩ := hw₀
    have hd : Worker.done ∈ s.workers := by
      have := hall w (mem_of_getElem? hw)
      rw [← this]
      exact mem_of_getElem? hw
    obtain ⟨hin, hinq⟩ := hcoh.done_in hd
    have hwg : s.wg = 0 := by rw [hcoh.wg_eq, hcoh.closed_live hcl]; rfl
    have := hcoh.closes_le
    exact ⟨hnocrash hall, hcoh.closed_src hin, hinq, hin, hall, hwg, hout, by omega, hrd⟩
  · intro hfuel
    refine ⟨?_, fun hfit hsafe => ⟨(hrun hfuel hfit hsafe).2.2.2.2.2.2.2.1, hrun hfuel hfit hsafe⟩⟩
    intro hall
    have hC := closer_blocked (hnocrash hall) (enabled_nil (hstuck hfuel) (by simp [actors]))
    obtain ⟨w, hw⟩ := hw₀
    have hd : Worker.done ∈ s.workers := by
      have := hall w (mem_of_getElem? hw)
      rw [← this]
      exact mem_of_getElem? hw
    have hwg : s.wg = 0 := by rw [hcoh.wg_eq, liveCount_zero hall]; rfl
    have := hcoh.closes_le
    by_contra hne
    exact hC ⟨by omega, hwg, fun _ => (hcoh.done_in hd).1⟩

/-- The pools of `ListImages` and `IntegrityCheckFromFile` on the scenario
registry, each with two workers and a schedule of 40 steps: the first has closed
its output channel once, the second is complete. -/
theorem pool_closes_once_witness :
    (exec (imagesCfg [⟨"p1"⟩]) (imagesBody scenarioClient)
        (Pool.start ["p1"] 2 : Pool String Image Unit) (List.replicate 40 0)).closes = 1 ∧
      (exec verifyFileCfg (verifyBody scenarioClient)
        (Pool.start scenarioTags 2 : Pool Tag Tag Unit) (List.replicate 40 0)).complete :=
  ⟨((pool_closes_once (imagesCfg [⟨"p1"⟩]) (imagesBody scenarioClient) ["p1"] 2
        (List.replicate 40 0) (by decide)).2.2.2.2 (by decide)).2
        (imagesCfg_fits scenarioClient [⟨"p1"⟩] _)
        (imagesBody_safe scenarioClient ["p1"] (by decide)) |>.1,
    ((pool_closes_once verifyFileCfg (verifyBody scenarioClient) scenarioTags 2
        (List.replicate 40 0) (by decide)).2.2.2.2 (by decide)).2
        (verifyFileCfg_fits scenarioClient (by decide))
        (verifyBody_safe scenarioClient scenarioTags) |>.2⟩

end Harbor
